import Mathlib

/-!
# AudioWatch watch-rule expression language: a shallow embedding

This file embeds the core of the AudioWatch repository — the watch-rule
expression parser (`src/audiowatch/matcher/parser.py`) and evaluator
(`src/audiowatch/matcher/evaluator.py`) — and proves properties of the
embedded definitions.

Modelling conventions:
* Python exceptions are modelled by `Except PyErr`; the distinct error
  constructors track Python's exception classes where the code's
  `except` clauses distinguish them (in particular `decimal.InvalidOperation`
  is an `ArithmeticError`, not a `ValueError`/`TypeError`, so the evaluator's
  local `except (ValueError, TypeError)` does not catch it).
* `decimal.Decimal` values are modelled by their exact numeric value in `ℚ`
  (comparison and equality of Decimals are exact numeric operations; the
  display scale of a Decimal, which no verified claim depends on, is not
  tracked).
* A listing record is modelled as a partial map from attribute names to
  values, mirroring `getattr(listing, field_name, None)`; attribute values
  are strings, Decimals or ints (the attribute types of
  `audiowatch.database.models.Listing` reachable from `FIELD_MAPPING`).
* Numeric literals of the rule grammar are modelled as (signed) integers;
  fractional/scientific literals of `pyparsing_common.number`, the special
  Decimal strings (NaN/Infinity) and underscore digit separators accepted by
  Python's `int`/`Decimal` constructors lie outside the modelled fragment,
  as does non-ASCII case conversion.
-/

namespace AudioWatch

/-- Python exception classes distinguished by the evaluator's control flow. -/
inductive PyErr where
  | valueError
  | typeError
  | invalidOperation
  | indexError
deriving DecidableEq, Repr

deriving instance DecidableEq for Except

/-- `Operator` — the closed enum of comparison/string operators
(`parser.py`, class `Operator`). -/
inductive Operator where
  | eq | ne | lt | gt | le | ge
  | contains | startswith | endswith
  | matches | fuzzy_contains
deriving DecidableEq, Repr

/-- `BoolOp` — the closed enum of boolean operators (`parser.py`, class `BoolOp`). -/
inductive BoolOp where
  | and | or | not
deriving DecidableEq, Repr

/-- A literal value attached to a condition: the result of parsing a quoted
string or a numeric literal (`value` in the grammar). -/
inductive Lit where
  | str (s : String)
  | int (n : Int)
deriving DecidableEq, Repr

/-- `Expression = Condition | BooleanExpr` — the AST of `parser.py`.
`cond` is the dataclass `Condition(field, operator, value)`; `boolE` is the
dataclass `BooleanExpr(operator, operands)`. -/
inductive Expression where
  | cond (field : String) (op : Operator) (value : Lit)
  | boolE (op : BoolOp) (operands : List Expression)
deriving Repr


mutual
/-- Decidable equality for the nested `Expression` type. -/
def decEqExpr : (a b : Expression) → Decidable (a = b)
  | .cond f o v, .cond f₂ o₂ v₂ =>
    match decEq f f₂, decEq o o₂, decEq v v₂ with
    | isTrue h₁, isTrue h₂, isTrue h₃ => isTrue (by rw [h₁, h₂, h₃])
    | isFalse h₁, _, _ => isFalse (by intro h; cases h; exact h₁ rfl)
    | _, isFalse h₂, _ => isFalse (by intro h; cases h; exact h₂ rfl)
    | _, _, isFalse h₃ => isFalse (by intro h; cases h; exact h₃ rfl)
  | .cond _ _ _, .boolE _ _ => isFalse (fun h => Expression.noConfusion h)
  | .boolE _ _, .cond _ _ _ => isFalse (fun h => Expression.noConfusion h)
  | .boolE op ops, .boolE op₂ ops₂ =>
    match decEq op op₂, decEqExprList ops ops₂ with
    | isTrue h₁, isTrue h₂ => isTrue (by rw [h₁, h₂])
    | isFalse h₁, _ => isFalse (by intro h; cases h; exact h₁ rfl)
    | _, isFalse h₂ => isFalse (by intro h; cases h; exact h₂ rfl)

/-- Decidable equality for lists of expressions. -/
def decEqExprList : (a b : List Expression) → Decidable (a = b)
  | [], [] => isTrue rfl
  | [], _ :: _ => isFalse (fun h => List.noConfusion h)
  | _ :: _, [] => isFalse (fun h => List.noConfusion h)
  | a :: as, b :: bs =>
    match decEqExpr a b, decEqExprList as bs with
    | isTrue h₁, isTrue h₂ => isTrue (by rw [h₁, h₂])
    | isFalse h₁, _ => isFalse (by intro h; cases h; exact h₁ rfl)
    | _, isFalse h₂ => isFalse (by intro h; cases h; exact h₂ rfl)
end

instance : DecidableEq Expression := decEqExpr

/-- A runtime value of a listing attribute: a Python `str`, a
`decimal.Decimal` (modelled by its exact value) or an `int`. -/
inductive PyVal where
  | str (s : String)
  | dec (q : ℚ)
  | int (n : Int)
deriving DecidableEq, Repr

/-- A listing record, as the evaluator sees it:
`getattr(listing, name, None)` becomes application of the map. -/
def Listing : Type := String → Option PyVal

/-- Python `str.lower()` (ASCII fragment: `Char.toLower` lowers exactly
the ASCII uppercase letters, matching `.lower()` on the ASCII strings of the
modelled fragment). -/
def strLower (s : String) : String := ⟨s.data.map Char.toLower⟩

/-- Python `a.startswith(b)`. -/
def strStartsWith (a b : String) : Bool := b.data.isPrefixOf a.data

/-- Python `a.endswith(b)`. -/
def strEndsWith (a b : String) : Bool := b.data.reverse.isPrefixOf a.data.reverse

/-- Python `<` on strings: lexicographic comparison by code point. -/
def charListLt : List Char → List Char → Bool
  | _, [] => false
  | [], _ :: _ => true
  | a :: as, b :: bs => a < b || (a = b && charListLt as bs)

/-- Python `b in a` on strings: contiguous substring test. -/
def charListInfix (needle : List Char) : List Char → Bool
  | [] => needle.isEmpty
  | h :: t => needle.isPrefixOf (h :: t) || charListInfix needle t

/-- `RuleEvaluator.FIELD_MAPPING` — the fixed alias table from logical field
names to listing attribute names (`evaluator.py`). -/
def FIELD_MAPPING : List (String × String) :=
  [ ("title", "title"),
    ("price", "price"),
    ("currency", "currency"),
    ("category", "category"),
    ("condition", "condition"),
    ("seller", "seller_username"),
    ("seller_username", "seller_username"),
    ("seller_reputation", "seller_reputation"),
    ("listing_type", "listing_type"),
    ("type", "listing_type"),
    ("shipping", "shipping_regions"),
    ("ships_to", "shipping_regions") ]

/-- `FIELD_MAPPING.get(cond.field.lower(), cond.field)` — resolve a logical
field name to a listing attribute name (`evaluator.py`, line 109). -/
def resolveField (f : String) : String :=
  (FIELD_MAPPING.lookup (strLower f)).getD f

/-- Python `str.strip()` whitespace characters (ASCII fragment). -/
def isPyWs (c : Char) : Bool :=
  c = ' ' || c = '\t' || c = '\n' || c = '\x0d'

/-- Decimal digit test (ASCII). -/
def isDigitChar (c : Char) : Bool :=
  '0' ≤ c && c ≤ '9'

/-- Value of a nonempty all-digit character list, most significant first. -/
def digitsVal (ds : List Char) : Nat :=
  ds.foldl (fun acc c => 10 * acc + (c.toNat - 48)) 0

/-- The rational `n/1` by the core constructor (kernel-reducible form of
the cast `(n : ℚ)`). -/
def intToRat (n : Int) : ℚ := mkRat n 1

/-- Multiplication of rationals in kernel-reducible form (`Rat.mul` is
marked irreducible; `mkRat` renormalises, so this equals `a * b`). -/
def ratMul (a b : ℚ) : ℚ := mkRat (a.num * b.num) (a.den * b.den)

/-- Negation of a rational in kernel-reducible form. -/
def ratNeg (a : ℚ) : ℚ := mkRat (-a.num) a.den

/-- The rational `10 ^ e` for an integer exponent, by core operations. -/
def ratPow10 (e : Int) : ℚ :=
  if 0 ≤ e then mkRat (Int.ofNat (Nat.pow 10 e.toNat)) 1
  else mkRat 1 (Nat.pow 10 (-e).toNat)

/-- Python `int(s)` for a string argument: optional surrounding whitespace,
optional sign, one or more ASCII digits; `none` models the `ValueError` that
any other string raises. -/
def pyIntOfString (s : String) : Option Int :=
  let core := (s.data.dropWhile isPyWs).reverse.dropWhile isPyWs |>.reverse
  let signed : Bool × List Char :=
    match core with
    | '+' :: ds => (false, ds)
    | '-' :: ds => (true, ds)
    | ds => (false, ds)
  match signed with
  | (neg, ds) =>
    if ds ≠ [] ∧ ds.all isDigitChar then
      some (if neg then -(digitsVal ds : Int) else (digitsVal ds : Int))
    else
      none

/-- Python `Decimal(s)` for a string argument (finite numeric strings):
optional surrounding whitespace, optional sign, digits with an optional
fraction part (at least one digit overall), and an optional decimal
exponent.  `none` models the `decimal.InvalidOperation` raised otherwise. -/
def pyDecimalOfString (s : String) : Option ℚ :=
  let core := (s.data.dropWhile isPyWs).reverse.dropWhile isPyWs |>.reverse
  let signed : Bool × List Char :=
    match core with
    | '+' :: ds => (false, ds)
    | '-' :: ds => (true, ds)
    | ds => (false, ds)
  match signed with
  | (neg, ds) =>
    let intPart := ds.takeWhile isDigitChar
    let rest₁ := ds.dropWhile isDigitChar
    let fracAndRest : Option (List Char × List Char) :=
      match rest₁ with
      | '.' :: t => some (t.takeWhile isDigitChar, t.dropWhile isDigitChar)
      | t => some ([], t)
    match fracAndRest with
    | some (fracPart, rest₂) =>
      if intPart = [] ∧ fracPart = [] then none
      else
        let expVal : Option Int :=
          match rest₂ with
          | [] => some 0
          | e :: t =>
            if e = 'e' ∨ e = 'E' then
              match t with
              | '+' :: ds₂ => if ds₂ ≠ [] ∧ ds₂.all isDigitChar then some (digitsVal ds₂ : Int) else none
              | '-' :: ds₂ => if ds₂ ≠ [] ∧ ds₂.all isDigitChar then some (-(digitsVal ds₂ : Int)) else none
              | ds₂ => if ds₂ ≠ [] ∧ ds₂.all isDigitChar then some (digitsVal ds₂ : Int) else none
            else none
        match expVal with
        | none => none
        | some E =>
          let mantissa : ℚ := intToRat (digitsVal (intPart ++ fracPart) : Int)
          let scaled : ℚ := ratMul mantissa (ratPow10 (E - (fracPart.length : Int)))
          some (if neg then ratNeg scaled else scaled)
    | none => none

/-- Decimal digit character for a value `< 10`. -/
def digitChar (n : Nat) : Char := Char.ofNat (48 + n)

/-- Decimal digit string of a natural number (most significant first);
fuel-driven so that it reduces definitionally. -/
def natDigs : Nat → Nat → List Char
  | 0, _ => []
  | f + 1, n =>
    if n < 10 then [digitChar n]
    else natDigs f (n / 10) ++ [digitChar (n % 10)]

/-- Helper used only to give `natDigs` enough fuel. -/
def natDecRepr (n : Nat) : List Char := natDigs (n + 1) n

/-- Python `str(i)` / `repr(i)` for an `int`: minus sign for negatives, then
decimal digits. -/
def intDecRepr (n : Int) : List Char :=
  if n < 0 then '-' :: natDecRepr n.natAbs else natDecRepr n.natAbs

/-- Smallest `k` (fuel-bounded) with `q * 10 ^ k` integral. -/
def decScale : Nat → ℚ → Option Nat
  | 0, _ => none
  | f + 1, q => if q.den = 1 then some 0 else (decScale f (ratMul q (intToRat 10))).map (· + 1)

/-- Python `str(d)` for a `Decimal`, at the precision of this model: the
digits of the exact value, with the scale of a syntactic Decimal literal not
tracked (so `Decimal("1.50")` renders as `1.5`).  No verified claim depends
on this rendering; it only feeds the string-cast fallback of
`startswith`/`endswith`. -/
def decRepr (q : ℚ) : List Char :=
  match decScale 256 q with
  | some 0 => intDecRepr q.num
  | some (k + 1) =>
    let m := (ratMul q (ratPow10 (Int.ofNat (k + 1)))).num
    let ds := natDecRepr m.natAbs
    let ds := if ds.length ≤ k + 1 then List.replicate (k + 2 - ds.length) '0' ++ ds else ds
    let signPfx := if m < 0 then ['-'] else []
    signPfx ++ ds.take (ds.length - (k + 1)) ++ '.' :: ds.drop (ds.length - (k + 1))
  | none => intDecRepr q.num ++ '/' :: natDecRepr q.den

/-- Python `str(v)` of an attribute value. -/
def pyStr : PyVal → String
  | .str s => s
  | .dec q => ⟨decRepr q⟩
  | .int n => ⟨intDecRepr n⟩

/-- Python `==` between attribute values of the modelled types: numeric
types compare by value (`Decimal(5) == 5`), strings compare exactly, and a
string never equals a number. -/
def pyEq : PyVal → PyVal → Bool
  | .str a, .str b => a = b
  | .dec a, .dec b => a = b
  | .int a, .int b => a = b
  | .dec a, .int b => a = intToRat b
  | .int a, .dec b => intToRat a = b
  | _, _ => false

/-- `RuleEvaluator._equals`: case-insensitive equality when both sides are
strings, Python `==` otherwise. -/
def pyEquals (fv cv : PyVal) : Bool :=
  match fv, cv with
  | .str a, .str b => strLower a = strLower b
  | _, _ => pyEq fv cv

/-- Python `<` between attribute values: strings compare lexicographically,
numbers numerically, and a string/number mix raises `TypeError`. -/
def pyLt : PyVal → PyVal → Except PyErr Bool
  | .str a, .str b => .ok (charListLt a.data b.data)
  | .dec a, .dec b => .ok (a < b)
  | .int a, .int b => .ok (a < b)
  | .dec a, .int b => .ok (a < intToRat b)
  | .int a, .dec b => .ok (intToRat a < b)
  | _, _ => .error .typeError

/-- Python `==` used for the non-strict orderings `<=`/`>=`. -/
def pyValEq : PyVal → PyVal → Bool := pyEq

/-- `RuleEvaluator._contains`: case-insensitive substring test when both
sides are strings; otherwise Python `compare_value in field_value`, which
raises `TypeError` for every other pairing of the modelled types
(ints and Decimals are not containers, and `x in str` needs a string). -/
def pyContains : PyVal → PyVal → Except PyErr Bool
  | .str a, .str b => .ok (charListInfix (strLower b).data (strLower a).data)
  | _, _ => .error .typeError

/-- `RuleEvaluator._startswith`: case-insensitive prefix test for strings;
otherwise `str(field_value).startswith(str(compare_value))`. -/
def pyStartswith (fv cv : PyVal) : Bool :=
  match fv, cv with
  | .str a, .str b => strStartsWith (strLower a) (strLower b)
  | _, _ => strStartsWith (pyStr fv) (pyStr cv)

/-- `RuleEvaluator._endswith`: case-insensitive suffix test for strings;
otherwise `str(field_value).endswith(str(compare_value))`. -/
def pyEndswith (fv cv : PyVal) : Bool :=
  match fv, cv with
  | .str a, .str b => strEndsWith (strLower a) (strLower b)
  | _, _ => strEndsWith (pyStr fv) (pyStr cv)

/-- The literal of a condition, as the runtime value Python would hold in
`compare_value` before any coercion. -/
def litToVal : Lit → PyVal
  | .str s => .str s
  | .int n => .int n

/-- Is `op` one of the ordering operators `<`, `>`, `<=`, `>=`? -/
def isOrderOp (op : Operator) : Bool :=
  op = .lt || op = .gt || op = .le || op = .ge

/-- The ordering comparisons of `_evaluate_condition` (`field_value <
compare_value` and friends), with Python's mixed-type `TypeError`. -/
def pyOrdCompare (op : Operator) (fv cv : PyVal) : Except PyErr Bool :=
  match fv, cv with
  | .str a, .str b =>
    match op with
    | .lt => .ok (charListLt a.data b.data)
    | .gt => .ok (charListLt b.data a.data)
    | .le => .ok (charListLt a.data b.data || a == b)
    | .ge => .ok (charListLt b.data a.data || a == b)
    | _ => .error .typeError
  | .dec a, .dec b => .ok (ratOrd op a b)
  | .int a, .int b => .ok (ratOrd op (intToRat a) (intToRat b))
  | .dec a, .int b => .ok (ratOrd op a (intToRat b))
  | .int a, .dec b => .ok (ratOrd op (intToRat a) b)
  | _, _ => .error .typeError
where
  /-- Numeric ordering dispatch. -/
  ratOrd (op : Operator) (a b : ℚ) : Bool :=
    match op with
    | .lt => a < b
    | .gt => b < a
    | .le => a ≤ b
    | .ge => b ≤ a
    | _ => false

/-- The operator dispatch of `_evaluate_condition` (`evaluator.py`, lines
131–152): the `match cond.operator` block.  `MATCHES` and `FUZZY_CONTAINS`
have no case arm there, so they fall through to
`case _: raise ValueError(f"Unknown operator: ...")`. -/
def applyOperator (op : Operator) (fv cv : PyVal) : Except PyErr Bool :=
  match op with
  | .eq => .ok (pyEquals fv cv)
  | .ne => .ok (!pyEquals fv cv)
  | .lt | .gt | .le | .ge => pyOrdCompare op fv cv
  | .contains => pyContains fv cv
  | .startswith => .ok (pyStartswith fv cv)
  | .endswith => .ok (pyEndswith fv cv)
  | .matches => .error .valueError
  | .fuzzy_contains => .error .valueError

/-- `RuleEvaluator._evaluate_condition`: resolve the field, apply the
missing-value policy, coerce the literal for ordering operators (catching
`ValueError`/`TypeError` as `return False` — `decimal.InvalidOperation`
escapes), and dispatch on the operator. -/
def evalCondition (l : Listing) (f : String) (op : Operator) (v : Lit) :
    Except PyErr Bool :=
  match l (resolveField f) with
  | none =>
    -- Field is None - comparison depends on operator
    if op = .ne then .ok true else .ok false
  | some fv =>
    if isOrderOp op then
      match fv with
      | .dec _ =>
        -- compare_value = Decimal(str(compare_value))
        match v with
        | .int n => applyOperator op fv (.dec (intToRat n))
        | .str s =>
          match pyDecimalOfString s with
          | some q => applyOperator op fv (.dec q)
          | none => .error .invalidOperation
      | .int _ =>
        -- compare_value = type(field_value)(compare_value)
        match v with
        | .int n => applyOperator op fv (.int n)
        | .str s =>
          match pyIntOfString s with
          | some n => applyOperator op fv (.int n)
          | none => .ok false  -- ValueError caught: return False
      | .str _ => applyOperator op fv (litToVal v)
    else
      applyOperator op fv (litToVal v)

mutual
/-- `RuleEvaluator._evaluate` / `_evaluate_boolean`: the recursive tree walk.
Exceptions propagate; nothing is caught below the top level. -/
def evalExpr : Expression → Listing → Except PyErr Bool
  | .cond f op v, l => evalCondition l f op v
  | .boolE bop ops, l =>
    match bop with
    | .and => evalAll ops l
    | .or => evalAny ops l
    | .not =>
      match ops with
      | [] => .error .indexError  -- operands[0] on an empty list
      | e :: _ =>
        match evalExpr e l with
        | .ok b => .ok (!b)
        | .error err => .error err

/-- `all(self._evaluate(op, listing) for op in expr.operands)`:
left-to-right, stopping at the first `False`; an exception in an evaluated
operand propagates. -/
def evalAll : List Expression → Listing → Except PyErr Bool
  | [], _ => .ok true
  | e :: es, l =>
    match evalExpr e l with
    | .ok true => evalAll es l
    | .ok false => .ok false
    | .error err => .error err

/-- `any(self._evaluate(op, listing) for op in expr.operands)`:
left-to-right, stopping at the first `True`. -/
def evalAny : List Expression → Listing → Except PyErr Bool
  | [], _ => .ok false
  | e :: es, l =>
    match evalExpr e l with
    | .ok true => .ok true
    | .ok false => evalAny es l
    | .error err => .error err
end

/-- `RuleEvaluator.matches` (`evaluator.py`, lines 62–79): evaluate the
expression; any exception is caught (and logged) and the result is `False`. -/
def matchesB (expr : Expression) (l : Listing) : Bool :=
  match evalExpr expr l with
  | .ok b => b
  | .error _ => false

/-! ## The expression parser (`parser.py`)

The pyparsing grammar of `RuleParser._build_parser` is embedded as a lexer
plus a backtracking recursive-descent parser over tokens, mirroring
`infix_notation` with levels `NOT` (unary, tightest), `AND`, `OR` and the
parenthesised-group atom, with `parse_all=True` at the top
(`RuleParser.parse`).  The recursion is fuel-driven (fuel far exceeds the
maximal recursion depth for the given token count) so that every function
reduces definitionally. -/

/-- First character of `Word(alphas, alphanums + "_")`: an ASCII letter. -/
def identHeadChar (c : Char) : Bool :=
  ('a' ≤ c && c ≤ 'z') || ('A' ≤ c && c ≤ 'Z')

/-- Body character of `Word(alphas, alphanums + "_")`. -/
def identChar (c : Char) : Bool :=
  identHeadChar c || isDigitChar c || c = '_'

/-- Tokens of the rule grammar.  The six comparison symbols of
`one_of "= != < > <= >="` lex to `sym`; keywords and field names both lex to
`word` (keyword recognition is contextual and case-insensitive, as with
`CaselessKeyword`); `QuotedString` content (either quote, no escapes, no
newline) lexes to `strLit`; signed integer literals lex to `intLit`. -/
inductive Tok where
  | lpar | rpar
  | sym (o : Operator)
  | word (s : String)
  | strLit (s : String)
  | intLit (n : Int)
deriving DecidableEq, Repr

/-- Characters that terminate the content of a `QuotedString` with
delimiter `q`: the delimiter itself, or a line break (`multiline=False`). -/
def strBreak (q d : Char) : Bool := d = q ∨ d = '\n' ∨ d = '\x0d'

/-- One lexing step: skip one whitespace character or consume one token.
`none` models a position at which no grammar element of `parser.py` can
match (so the overall parse fails). -/
def lexStep : List Char → Option (Option Tok × List Char)
  | [] => none
  | c :: cs =>
    if c = ' ' ∨ c = '\t' ∨ c = '\n' then some (none, cs)
    else if c = '(' then some (some .lpar, cs)
    else if c = ')' then some (some .rpar, cs)
    else if c = '<' then
      if cs.head? = some '=' then some (some (.sym .le), cs.tail)
      else some (some (.sym .lt), cs)
    else if c = '>' then
      if cs.head? = some '=' then some (some (.sym .ge), cs.tail)
      else some (some (.sym .gt), cs)
    else if c = '=' then some (some (.sym .eq), cs)
    else if c = '!' then
      if cs.head? = some '=' then some (some (.sym .ne), cs.tail)
      else none
    else if c = '"' ∨ c = '\'' then
      if (cs.dropWhile (fun d => !strBreak c d)).head? = some c then
        some (some (.strLit ⟨cs.takeWhile (fun d => !strBreak c d)⟩),
              (cs.dropWhile (fun d => !strBreak c d)).tail)
      else none
    else if identHeadChar c then
      some (some (.word ⟨c :: cs.takeWhile identChar⟩), cs.dropWhile identChar)
    else if isDigitChar c then
      some (some (.intLit (digitsVal (c :: cs.takeWhile isDigitChar) : Int)),
            cs.dropWhile isDigitChar)
    else if c = '-' ∨ c = '+' then
      if (cs.head?.map isDigitChar).getD false then
        some (some (.intLit (if c = '-' then -(digitsVal (cs.takeWhile isDigitChar) : Int)
                             else (digitsVal (cs.takeWhile isDigitChar) : Int))),
              cs.dropWhile isDigitChar)
      else none
    else none

/-- Run the lexer to the end of input (fuel-driven; each step consumes at
least one character, so `length + 1` fuel always suffices). -/
def lexRun : Nat → List Char → Option (List Tok)
  | 0, _ => none
  | _ + 1, [] => some []
  | f + 1, c :: cs =>
    match lexStep (c :: cs) with
    | none => none
    | some (ot, rest) =>
      match lexRun f rest with
      | none => none
      | some ts =>
        match ot with
        | some t => some (t :: ts)
        | none => some ts

/-- Tokenise a whole character list. -/
def lexTokens (cs : List Char) : Option (List Tok) := lexRun (cs.length + 1) cs

/-- The operator denoted by a token in operator position:
a comparison symbol, or a string-operator keyword matched case-insensitively
(`CaselessKeyword`, then lowercased by `_make_condition`). -/
def tokOperator : Tok → Option Operator
  | .sym o => some o
  | .word w =>
    let lw := strLower w
    if lw = "contains" then some .contains
    else if lw = "startswith" then some .startswith
    else if lw = "endswith" then some .endswith
    else if lw = "matches" then some .matches
    else if lw = "fuzzy_contains" then some .fuzzy_contains
    else none
  | _ => none

/-- The literal denoted by a token in value position
(`QuotedString ... | number`). -/
def tokValue : Tok → Option Lit
  | .strLit s => some (.str s)
  | .intLit n => some (.int n)
  | _ => none

/-- Does this token match `CaselessKeyword kw`? -/
def isKw (t : Tok) (kw : String) : Bool :=
  match t with
  | .word w => strLower w = kw
  | _ => false

mutual
/-- `OR` level of `infix_notation`: an `AND`-level operand followed by a
greedy chain of `OR`-separated operands; a chain of length `n ≥ 2` builds a
single flattened node (`_make_or`). -/
def pOr : Nat → List Tok → Option (Expression × List Tok)
  | 0, _ => none
  | f + 1, ts =>
    match pAnd f ts with
    | none => none
    | some (e, ts₁) =>
      match pOrRest f ts₁ with
      | none => none
      | some ([], _) => some (e, ts₁)
      | some (e₂ :: ops, ts₂) => some (.boolE .or (e :: e₂ :: ops), ts₂)

/-- Greedy `(OR operand)*` continuation; stops (without consuming) when the
next token is not an `OR` keyword or the following operand fails. -/
def pOrRest : Nat → List Tok → Option (List Expression × List Tok)
  | 0, _ => none
  | f + 1, ts =>
    match ts with
    | t :: rest =>
      if isKw t "or" then
        match pAnd f rest with
        | some (e, rest₂) =>
          match pOrRest f rest₂ with
          | some (ops, ts₂) => some (e :: ops, ts₂)
          | none => none
        | none => some ([], ts)
      else some ([], ts)
    | [] => some ([], ts)

/-- `AND` level of `infix_notation` (binds tighter than `OR`). -/
def pAnd : Nat → List Tok → Option (Expression × List Tok)
  | 0, _ => none
  | f + 1, ts =>
    match pNot f ts with
    | none => none
    | some (e, ts₁) =>
      match pAndRest f ts₁ with
      | none => none
      | some ([], _) => some (e, ts₁)
      | some (e₂ :: ops, ts₂) => some (.boolE .and (e :: e₂ :: ops), ts₂)

/-- Greedy `(AND operand)*` continuation. -/
def pAndRest : Nat → List Tok → Option (List Expression × List Tok)
  | 0, _ => none
  | f + 1, ts =>
    match ts with
    | t :: rest =>
      if isKw t "and" then
        match pNot f rest with
        | some (e, rest₂) =>
          match pAndRest f rest₂ with
          | some (ops, ts₂) => some (e :: ops, ts₂)
          | none => none
        | none => some ([], ts)
      else some ([], ts)
    | [] => some ([], ts)

/-- `NOT` level (unary, right-associative, tightest boolean binding): try
`NOT <this level>`; if that fails, fall back to an atom — so a leading word
`not` can still begin an ordinary condition, as in pyparsing. -/
def pNot : Nat → List Tok → Option (Expression × List Tok)
  | 0, _ => none
  | f + 1, ts =>
    match ts with
    | t :: rest =>
      if isKw t "not" then
        match pNot f rest with
        | some (e, ts₂) => some (.boolE .not [e], ts₂)
        | none => pAtom f ts
      else pAtom f ts
    | [] => pAtom f ts

/-- Atom: a condition `field (comp_op | str_op) value` (`_make_condition`),
or a parenthesised expression. -/
def pAtom : Nat → List Tok → Option (Expression × List Tok)
  | 0, _ => none
  | f + 1, ts =>
    match ts with
    | .word fname :: opT :: valT :: rest =>
      match tokOperator opT, tokValue valT with
      | some op, some v => some (.cond fname op v, rest)
      | _, _ => none
    | .lpar :: rest =>
      match pOr f rest with
      | some (e, .rpar :: ts₂) => some (e, ts₂)
      | _ => none
    | _ => none
end

/-- Parse a complete token list (`parse_all=True`: trailing tokens are
rejected).  The fuel bound exceeds the parser recursion depth, which is
linear in the token count. -/
def parseToks (ts : List Tok) : Option Expression :=
  match pOr (10 * ts.length + 10) ts with
  | some (e, []) => some e
  | _ => none

/-- `parse_expression` / `RuleParser.parse`, as a partial function:
`none` models the raised `ValueError`. -/
def parseOpt (s : String) : Option Expression :=
  match lexTokens s.data with
  | some ts => parseToks ts
  | none => none

/-- The `ValueError` raised by `RuleParser.parse` wraps the original input
(`f"Failed to parse expression: \x7bexpression!r\x7d: \x7be\x7d"`), so the error value
carries the offending input text. -/
structure ParseErr where
  input : String
deriving DecidableEq, Repr

/-- `RuleParser.parse : str -> Expression | ValueError`. -/
def parseExpression (s : String) : Except ParseErr Expression :=
  match parseOpt s with
  | some e => .ok e
  | none => .error ⟨s⟩

/-! ## Serialisation (`Condition.__repr__` / `BooleanExpr.__repr__`) -/

/-- `Operator.value` — the text of an operator. -/
def opText : Operator → String
  | .eq => "="
  | .ne => "!="
  | .lt => "<"
  | .gt => ">"
  | .le => "<="
  | .ge => ">="
  | .contains => "contains"
  | .startswith => "startswith"
  | .endswith => "endswith"
  | .matches => "matches"
  | .fuzzy_contains => "fuzzy_contains"

/-- One character of Python `repr` of a string, given the chosen quote
character: backslashes, the quote and ASCII control whitespace are escaped
(other non-printable characters are outside the modelled fragment). -/
def escChar (q : Char) (c : Char) : List Char :=
  if c = '\\' then ['\\', '\\']
  else if c = q then ['\\', q]
  else if c = '\n' then ['\\', 'n']
  else if c = '\x0d' then ['\\', 'r']
  else if c = '\t' then ['\\', 't']
  else [c]

/-- Python `repr` of a string: single quotes, unless the string contains a
single quote and no double quote. -/
def pyReprStr (s : String) : String :=
  let q : Char := if s.data.contains '\'' && !(s.data.contains '"') then '"' else '\''
  ⟨q :: (s.data.map (escChar q)).flatten ++ [q]⟩

/-- Python `repr` of a condition value (`f"... \x7bself.value!r\x7d"`). -/
def reprLit : Lit → String
  | .str s => pyReprStr s
  | .int n => ⟨intDecRepr n⟩

mutual
/-- `Condition.__repr__` / `BooleanExpr.__repr__`: conditions render as
`field op value!r`; `NOT` renders as `NOT (operand)`; `AND`/`OR` render
parenthesised with the keyword joining the operand reprs.
(For `NOT` with no operands Python would raise `IndexError`; the model
renders `NOT ()`, a case outside every verified claim.) -/
def reprExpr : Expression → String
  | .cond f op v => f ++ " " ++ opText op ++ " " ++ reprLit v
  | .boolE .not ops =>
    "NOT (" ++ (match ops with | [] => "" | e :: _ => reprExpr e) ++ ")"
  | .boolE .and ops => "(" ++ reprJoin " AND " ops ++ ")"
  | .boolE .or ops => "(" ++ reprJoin " OR " ops ++ ")"

/-- `" AND ".join(str(o) for o in operands)`. -/
def reprJoin : String → List Expression → String
  | _, [] => ""
  | _, [e] => reprExpr e
  | sep, e :: e₂ :: es => reprExpr e ++ sep ++ reprJoin sep (e₂ :: es)
end

/-- The token a printed operator lexes back to. -/
def opTok : Operator → Tok
  | .eq => .sym .eq
  | .ne => .sym .ne
  | .lt => .sym .lt
  | .gt => .sym .gt
  | .le => .sym .le
  | .ge => .sym .ge
  | .contains => .word "contains"
  | .startswith => .word "startswith"
  | .endswith => .word "endswith"
  | .matches => .word "matches"
  | .fuzzy_contains => .word "fuzzy_contains"

/-- The token a printed literal lexes back to. -/
def valTok : Lit → Tok
  | .str s => .strLit s
  | .int n => .intLit n

mutual
/-- The token sequence of the printed form of an expression. -/
def toksOf : Expression → List Tok
  | .cond f op v => [.word f, opTok op, valTok v]
  | .boolE .not ops =>
    .word "NOT" :: .lpar :: (match ops with | [] => [] | e :: _ => toksOf e) ++ [.rpar]
  | .boolE .and ops => .lpar :: toksJoin (.word "AND") ops ++ [.rpar]
  | .boolE .or ops => .lpar :: toksJoin (.word "OR") ops ++ [.rpar]

/-- Token sequences of chain operands, interleaved with the keyword. -/
def toksJoin : Tok → List Expression → List Tok
  | _, [] => []
  | _, [e] => toksOf e
  | sep, e :: e₂ :: es => toksOf e ++ sep :: toksJoin sep (e₂ :: es)
end

/-! ## Sample records used in witnesses and counterexamples -/

/-- A sample listing: present string title, Decimal price `999.99`,
and a few more attributes. -/
def sampleListing : Listing := fun a =>
  if a = "title" then some (.str "Sennheiser HD800")
  else if a = "price" then some (.dec (mkRat 99999 100))
  else if a = "seller_username" then some (.str "audiofan")
  else if a = "listing_type" then some (.str "for_sale")
  else if a = "seller_reputation" then some (.int 10)
  else none

/-- A listing whose price is `Decimal("1000.00")`. -/
def priceAtLimitListing : Listing := fun a =>
  if a = "price" then some (.dec (mkRat 1000 1)) else none

/-- The listing of the spec scenario for `fuzzy_contains`. -/
def fuzzyListing : Listing := fun a =>
  if a = "title" then some (.str "Thie Audio Monark MK2") else none

/-- `mkRat n 1` is the cast of `n`. -/
theorem intToRat_eq (n : Int) : intToRat n = (n : ℚ) := by
  simp [intToRat, Rat.mkRat_one]

/-! ## Claims about the evaluator -/

/-- C1: for every expression and record, `matches` returns a boolean and
never raises: it returns `true` exactly when the evaluation succeeds with
`True`, and whenever evaluation raises any exception the result is `false`. -/
theorem matches_never_raises (e : Expression) (l : Listing) :
    (matchesB e l = true ↔ evalExpr e l = .ok true) ∧
    (∀ err : PyErr, evalExpr e l = .error err → matchesB e l = false) := by
  unfold matchesB
  rcases h : evalExpr e l with b | err
  · cases b <;> simp
  · simp

/-- Witness for C1 at a concrete input: a `matches`-operator condition
raises `ValueError` inside evaluation, and `matches` returns `false`. -/
theorem matches_never_raises_witness :
    matchesB (.cond "title" .matches (.str "hd800")) sampleListing = false ∧
    matchesB (.cond "title" .contains (.str "hd800")) sampleListing = true := by
  constructor
  · exact (matches_never_raises (.cond "title" .matches (.str "hd800")) sampleListing).2
      .valueError (by decide)
  · exact (matches_never_raises (.cond "title" .contains (.str "hd800")) sampleListing).1.mpr
      (by decide)

/-- C2 counterexample: an `OR` whose first operand raises (here: a `matches`
condition, which the evaluator cannot dispatch) and whose second operand
evaluates `true` does NOT evaluate to `true`: the exception propagates out
of the `OR` node and the top-level `matches` returns `false` for the whole
record. -/
theorem or_failure_not_recovered_locally_cex :
    evalExpr (.cond "title" .contains (.str "hd")) sampleListing = .ok true ∧
    evalExpr (.boolE .or [.cond "title" .matches (.str "x"),
      .cond "title" .contains (.str "hd")]) sampleListing = .error .valueError ∧
    matchesB (.boolE .or [.cond "title" .matches (.str "x"),
      .cond "title" .contains (.str "hd")]) sampleListing = false := by
  refine ⟨by decide, by decide, by decide⟩

/-- C2 (amended): a runtime failure in an operand of `AND`/`OR` is not
recovered locally: it propagates out of the boolean node (so sibling
operands after the failing one are never evaluated), and only the top-level
`matches` catches it, yielding `false` for the whole expression. -/
theorem boolean_operand_failure_propagates (l : Listing) (e : Expression)
    (rest : List Expression) (err : PyErr) (h : evalExpr e l = .error err) :
    evalExpr (.boolE .or (e :: rest)) l = .error err ∧
    evalExpr (.boolE .and (e :: rest)) l = .error err ∧
    matchesB (.boolE .or (e :: rest)) l = false ∧
    matchesB (.boolE .and (e :: rest)) l = false := by
  have hor : evalExpr (.boolE .or (e :: rest)) l = .error err := by
    simp [evalExpr, evalAny, h]
  have hand : evalExpr (.boolE .and (e :: rest)) l = .error err := by
    simp [evalExpr, evalAll, h]
  refine ⟨hor, hand, ?_, ?_⟩ <;> simp [matchesB, hor, hand]

/-- Witness for the amended C2 at a concrete input. -/
theorem boolean_operand_failure_propagates_witness :
    evalExpr (.boolE .or [.cond "title" .matches (.str "x"),
      .cond "title" .contains (.str "hd")]) sampleListing = .error .valueError ∧
    matchesB (.boolE .or [.cond "title" .matches (.str "x"),
      .cond "title" .contains (.str "hd")]) sampleListing = false := by
  have h := boolean_operand_failure_propagates sampleListing
    (.cond "title" .matches (.str "x")) [.cond "title" .contains (.str "hd")]
    .valueError (by decide)
  exact ⟨h.1, h.2.2.1⟩

/-- C3 (code bug): the evaluator has no `case` arm for the `matches`
operator — `_evaluate_condition` falls through to
`raise ValueError("Unknown operator")` — so a `matches` condition on a
present field never performs a regex search: it raises, and the top-level
`matches` call reports `false`, although `parser.py` documents
`matches` as case-insensitive regex matching. -/
theorem matches_operator_unimplemented :
    applyOperator .matches (.str "Sennheiser HD800") (.str "hd800") = .error .valueError ∧
    evalCondition sampleListing "title" .matches (.str "hd800") = .error .valueError ∧
    matchesB (.cond "title" .matches (.str "hd800")) sampleListing = false := by
  refine ⟨by decide, by decide, by decide⟩

/-- C4 (code bug): likewise there is no `case` arm for `fuzzy_contains`:
the spec scenario `title fuzzy_contains "ThieAudio Monarch"` against title
`"Thie Audio Monark MK2"` raises `ValueError` instead of fuzzy-matching,
and the rule reports `false`, not `true`. -/
theorem fuzzy_contains_operator_unimplemented :
    applyOperator .fuzzy_contains (.str "Thie Audio Monark MK2")
      (.str "ThieAudio Monarch") = .error .valueError ∧
    evalCondition fuzzyListing "title" .fuzzy_contains
      (.str "ThieAudio Monarch") = .error .valueError ∧
    matchesB (.cond "title" .fuzzy_contains (.str "ThieAudio Monarch"))
      fuzzyListing = false := by
  refine ⟨by decide, by decide, by decide⟩

/-- C5: when the resolved field is absent (or `None`) on the record, a
condition evaluates `true` under `!=` and `false` under every other
operator, without raising. -/
theorem missing_field_policy (l : Listing) (f : String) (op : Operator)
    (v : Lit) (h : l (resolveField f) = none) :
    evalCondition l f op v = .ok (op = .ne) := by
  unfold evalCondition
  rw [h]
  by_cases hop : op = .ne <;> simp [hop]

/-- Witness for C5 at concrete inputs, one per policy branch, including the
unimplemented operators (the `None` check precedes operator dispatch). -/
theorem missing_field_policy_witness :
    evalCondition (fun _ => none) "status" .ne (.str "sold") = .ok true ∧
    evalCondition (fun _ => none) "seller_reputation" .ge (.int 5) = .ok false ∧
    evalCondition (fun _ => none) "price" .matches (.str "x") = .ok false := by
  refine ⟨?_, ?_, ?_⟩
  · simpa using missing_field_policy (fun _ => none) "status" .ne (.str "sold") rfl
  · simpa using missing_field_policy (fun _ => none) "seller_reputation" .ge (.int 5) rfl
  · simpa using missing_field_policy (fun _ => none) "price" .matches (.str "x") rfl

/-- C6 counterexample: on a Decimal-typed field, a literal whose coercion
fails does NOT make the condition evaluate `false`: `Decimal(str("abc"))`
raises `decimal.InvalidOperation`, which the local
`except (ValueError, TypeError)` does not catch, so the condition raises —
observably, `NOT (price < "abc")` yields `false` (error swallowed at the
top), where the claim would give `true`. -/
theorem decimal_coercion_failure_not_false_cex :
    evalCondition sampleListing "price" .lt (.str "abc") = .error .invalidOperation ∧
    evalCondition sampleListing "price" .lt (.str "abc") ≠ .ok false ∧
    matchesB (.boolE .not [.cond "price" .lt (.str "abc")]) sampleListing = false := by
  refine ⟨by decide, by decide, by decide⟩

/-- C6 (amended): for ordering operators the literal is coerced to the
field's native numeric type before comparing — exactly (decimal-preserving)
for Decimal fields, where an integer literal compares by exact value; for
int-typed fields a failed coercion is caught and the condition evaluates
`false`; for Decimal-typed fields a failed coercion raises
`decimal.InvalidOperation`, which escapes the `ValueError`/`TypeError`
handler (only the top-level `matches` then yields `false`).  In particular
`price < 1000` holds at price `Decimal("999.99")` and fails at
`Decimal("1000.00")`. -/
theorem numeric_coercion_semantics :
    (∀ (l : Listing) (f : String) (q : ℚ) (n : Int),
      l (resolveField f) = some (.dec q) →
      evalCondition l f .lt (.int n) = .ok (decide (q < (n : ℚ))) ∧
      evalCondition l f .gt (.int n) = .ok (decide ((n : ℚ) < q)) ∧
      evalCondition l f .le (.int n) = .ok (decide (q ≤ (n : ℚ))) ∧
      evalCondition l f .ge (.int n) = .ok (decide ((n : ℚ) ≤ q))) ∧
    (∀ (l : Listing) (f : String) (m : Int) (s : String) (op : Operator),
      isOrderOp op = true →
      l (resolveField f) = some (.int m) →
      pyIntOfString s = none →
      evalCondition l f op (.str s) = .ok false) ∧
    (∀ (l : Listing) (f : String) (q : ℚ) (s : String) (op : Operator),
      isOrderOp op = true →
      l (resolveField f) = some (.dec q) →
      pyDecimalOfString s = none →
      evalCondition l f op (.str s) = .error .invalidOperation) ∧
    evalCondition sampleListing "price" .lt (.int 1000) = .ok true ∧
    evalCondition priceAtLimitListing "price" .lt (.int 1000) = .ok false := by
  refine ⟨?_, ?_, ?_, by decide, by decide⟩
  · intro l f q n h
    refine ⟨?_, ?_, ?_, ?_⟩ <;>
      simp [evalCondition, h, isOrderOp, applyOperator, pyOrdCompare,
        pyOrdCompare.ratOrd, intToRat_eq]
  · intro l f m s op hop h hs
    unfold evalCondition
    rw [h, hop]
    simp only [hs]
    have : op = .lt ∨ op = .gt ∨ op = .le ∨ op = .ge := by
      revert hop; unfold isOrderOp; cases op <;> simp
    rcases this with h₁ | h₁ | h₁ | h₁ <;> subst h₁ <;> rfl
  · intro l f q s op hop h hs
    unfold evalCondition
    rw [h, hop]
    simp [hs]

/-- Witness for the amended C6 at concrete inputs, discharging each
hypothesis: exact Decimal comparison against an int literal, caught
coercion failure on an int field, and the escaping `InvalidOperation` on a
Decimal field. -/
theorem numeric_coercion_semantics_witness :
    evalCondition sampleListing "price" .lt (.int 1000) = .ok true ∧
    evalCondition sampleListing "seller_reputation" .ge (.str "abc") = .ok false ∧
    evalCondition sampleListing "price" .lt (.str "abc") = .error .invalidOperation := by
  refine ⟨?_, ?_, ?_⟩
  · have h := (numeric_coercion_semantics.1 sampleListing "price" (mkRat 99999 100) 1000
      (by decide)).1
    rw [h]; decide
  · exact numeric_coercion_semantics.2.1 sampleListing "seller_reputation" 10 "abc" .ge
      (by decide) (by decide) (by decide)
  · exact numeric_coercion_semantics.2.2.1 sampleListing "price" (mkRat 99999 100) "abc" .lt
      (by decide) (by decide) (by decide)

/-- C10: logical field names resolve case-insensitively through the fixed
alias table (the evaluator lowercases before lookup), and names whose
lowercase form is not in the table pass through with their original
spelling. -/
theorem field_resolution_policy :
    resolveField "Title" = "title" ∧
    resolveField "TITLE" = "title" ∧
    resolveField "Seller" = "seller_username" ∧
    resolveField "seller" = "seller_username" ∧
    resolveField "TYPE" = "listing_type" ∧
    resolveField "type" = "listing_type" ∧
    resolveField "Ships_To" = "shipping_regions" ∧
    (∀ f : String, FIELD_MAPPING.lookup (strLower f) = none → resolveField f = f) := by
  refine ⟨by decide, by decide, by decide, by decide, by decide, by decide, by decide, ?_⟩
  intro f h
  unfold resolveField
  rw [h]
  rfl

/-- Witness for C10: an unknown name (also when not lowercase) passes
through unchanged. -/
theorem field_resolution_policy_witness :
    resolveField "Description" = "Description" := by
  exact field_resolution_policy.2.2.2.2.2.2.2 "Description" (by decide)

/-! ## Well-formedness predicates for parser outputs -/

/-- Does the string have the shape of `Word(alphas, alphanums + "_")`? -/
def identB (s : String) : Bool :=
  match s.data with
  | [] => false
  | c :: cs => identHeadChar c && cs.all identChar

/-- Facts the lexer guarantees about a string-literal value: no newline (a
`QuotedString` cannot span lines) and not both quote characters (the content
cannot contain its own delimiter). -/
def litLexed : Lit → Bool
  | .str s =>
    s.data.all (fun c => c ≠ '\n' && c ≠ '\x0d') &&
      (!(s.data.contains '"') || !(s.data.contains '\''))
  | .int _ => true

/-- Is this token a possible lexer output? -/
def tokWF : Tok → Bool
  | .word w => identB w
  | .strLit s => litLexed (.str s)
  | _ => true

/-- Does the literal print without `repr` escapes? (Backslashes and tabs
are the only characters of lexable literals that `repr` escapes.) -/
def litPrintable : Lit → Bool
  | .str s => s.data.all (fun c => c ≠ '\\' && c ≠ '\t')
  | .int _ => true

mutual
/-- The structural invariant of parser-built boolean nodes: `NOT` has
exactly one operand, `AND`/`OR` have at least two. -/
def arityB : Expression → Bool
  | .cond _ _ _ => true
  | .boolE .not ops => ops.length == 1 && arityListB ops
  | .boolE .and ops => decide (2 ≤ ops.length) && arityListB ops
  | .boolE .or ops => decide (2 ≤ ops.length) && arityListB ops

/-- `arityB` on every element. -/
def arityListB : List Expression → Bool
  | [] => true
  | e :: es => arityB e && arityListB es
end

mutual
/-- Token-derived facts about a parsed expression: every condition field is
an identifier-shaped word and every string literal is lexable content. -/
def lexWF : Expression → Bool
  | .cond f _ v => identB f && litLexed v
  | .boolE _ ops => lexWFList ops

/-- `lexWF` on every element. -/
def lexWFList : List Expression → Bool
  | [] => true
  | e :: es => lexWF e && lexWFList es
end

mutual
/-- No string literal of the expression contains a backslash or a tab. -/
def printableB : Expression → Bool
  | .cond _ _ v => litPrintable v
  | .boolE _ ops => printableListB ops

/-- `printableB` on every element. -/
def printableListB : List Expression → Bool
  | [] => true
  | e :: es => printableB e && printableListB es
end

mutual
/-- A size measure for nested induction. -/
def esize : Expression → Nat
  | .cond _ _ _ => 1
  | .boolE _ ops => 1 + esizeList ops

/-- Sum of operand sizes. -/
def esizeList : List Expression → Nat
  | [] => 0
  | e :: es => esize e + esizeList es
end

/-! ## Lexer lemmas -/

theorem length_dropWhile_le (p : Char → Bool) (l : List Char) :
    (l.dropWhile p).length ≤ l.length :=
  (List.dropWhile_sublist p).length_le

/-- A lexing step consumes at least one character. -/
theorem lexStep_shorter {cs rest : List Char} {ot : Option Tok}
    (h : lexStep cs = some (ot, rest)) : rest.length < cs.length := by
  have hT : ∀ l : List Char, (List.tail l).length ≤ l.length := fun l => by
    cases l <;> simp
  have fin : ∀ r : List Char, r = cs.tail ∨ r = cs.tail.tail ∨
      (∃ p : Char → Bool, r = cs.tail.dropWhile p) ∨
      (∃ p : Char → Bool, r = (cs.tail.dropWhile p).tail) →
      r.length < cs.tail.length + 1 := by
    rintro r (rfl | rfl | ⟨p, rfl⟩ | ⟨p, rfl⟩)
    · omega
    · have := hT cs.tail; omega
    · have := length_dropWhile_le p cs.tail; omega
    · have h₁ := hT (cs.tail.dropWhile p)
      have h₂ := length_dropWhile_le p cs.tail
      omega
  match cs with
  | [] => simp [lexStep] at h
  | c :: cs' =>
    simp only [lexStep] at h
    by_cases h₁ : c = ' ' ∨ c = '\t' ∨ c = '\n'
    · rw [if_pos h₁] at h; cases h; exact fin _ (.inl rfl)
    rw [if_neg h₁] at h
    by_cases h₂ : c = '('
    · rw [if_pos h₂] at h; cases h; exact fin _ (.inl rfl)
    rw [if_neg h₂] at h
    by_cases h₃ : c = ')'
    · rw [if_pos h₃] at h; cases h; exact fin _ (.inl rfl)
    rw [if_neg h₃] at h
    by_cases h₄ : c = '<'
    · rw [if_pos h₄] at h
      by_cases hh : cs'.head? = some '='
      · rw [if_pos hh] at h; cases h; exact fin _ (.inr (.inl rfl))
      · rw [if_neg hh] at h; cases h; exact fin _ (.inl rfl)
    rw [if_neg h₄] at h
    by_cases h₅ : c = '>'
    · rw [if_pos h₅] at h
      by_cases hh : cs'.head? = some '='
      · rw [if_pos hh] at h; cases h; exact fin _ (.inr (.inl rfl))
      · rw [if_neg hh] at h; cases h; exact fin _ (.inl rfl)
    rw [if_neg h₅] at h
    by_cases h₆ : c = '='
    · rw [if_pos h₆] at h; cases h; exact fin _ (.inl rfl)
    rw [if_neg h₆] at h
    by_cases h₇ : c = '!'
    · rw [if_pos h₇] at h
      by_cases hh : cs'.head? = some '='
      · rw [if_pos hh] at h; cases h; exact fin _ (.inr (.inl rfl))
      · rw [if_neg hh] at h; exact Option.noConfusion h
    rw [if_neg h₇] at h
    by_cases h₈ : c = '"' ∨ c = '\''
    · rw [if_pos h₈] at h
      by_cases hh : (cs'.dropWhile (fun d => !strBreak c d)).head? = some c
      · rw [if_pos hh] at h; cases h
        exact fin _ (.inr (.inr (.inr ⟨_, rfl⟩)))
      · rw [if_neg hh] at h; exact Option.noConfusion h
    rw [if_neg h₈] at h
    by_cases h₉ : identHeadChar c = true
    · rw [if_pos h₉] at h; cases h
      exact fin _ (.inr (.inr (.inl ⟨_, rfl⟩)))
    rw [if_neg h₉] at h
    by_cases h₁₀ : isDigitChar c = true
    · rw [if_pos h₁₀] at h; cases h
      exact fin _ (.inr (.inr (.inl ⟨_, rfl⟩)))
    rw [if_neg h₁₀] at h
    by_cases h₁₁ : c = '-' ∨ c = '+'
    · rw [if_pos h₁₁] at h
      by_cases hh : (cs'.head?.map isDigitChar).getD false = true
      · rw [if_pos hh] at h; cases h
        exact fin _ (.inr (.inr (.inl ⟨_, rfl⟩)))
      · rw [if_neg hh] at h; exact Option.noConfusion h
    rw [if_neg h₁₁] at h
    exact Option.noConfusion h

/-- Cons an optional token. -/
def consOptTok (ot : Option Tok) (ts : List Tok) : List Tok :=
  match ot with
  | some t => t :: ts
  | none => ts

/-- The lexer result does not depend on the fuel, as long as the fuel
exceeds the input length. -/
theorem lexRun_irrel : ∀ (n f g : Nat) (cs : List Char), cs.length ≤ n →
    cs.length < f → cs.length < g → lexRun f cs = lexRun g cs := by
  intro n
  induction n with
  | zero =>
    intro f g cs h hf hg
    match cs, h with
    | [], _ =>
      match f, g, hf, hg with
      | _ + 1, _ + 1, _, _ => rfl
  | succ n ih =>
    intro f g cs h hf hg
    match cs with
    | [] =>
      match f, g, hf, hg with
      | _ + 1, _ + 1, _, _ => rfl
    | c :: cs' =>
      match f, g, hf, hg with
      | f + 1, g + 1, hf, hg =>
        simp only [lexRun]
        cases hstep : lexStep (c :: cs') with
        | none => rfl
        | some pr =>
          obtain ⟨ot, rest⟩ := pr
          have hlt := lexStep_shorter hstep
          simp only [List.length_cons] at hlt hf hg h
          dsimp only
          rw [ih f g rest (by omega) (by omega) (by omega)]

/-- Unfolding one lexer step at the `lexTokens` level. -/
theorem lexTokens_step {cs rest : List Char} {ot : Option Tok}
    (h : lexStep cs = some (ot, rest)) :
    lexTokens cs = (lexTokens rest).map (consOptTok ot) := by
  match cs with
  | [] => simp [lexStep] at h
  | c :: cs' =>
    have hlt := lexStep_shorter h
    simp only [List.length_cons] at hlt
    unfold lexTokens
    simp only [List.length_cons, lexRun, h]
    rw [lexRun_irrel (cs'.length + 1) (cs'.length + 1) (rest.length + 1) rest
      (by omega) (by omega) (by omega)]
    cases lexRun (rest.length + 1) rest <;> cases ot <;> simp [consOptTok]

/-- Elements of a `takeWhile` satisfy the predicate. -/
theorem mem_takeWhile_pred {p : Char → Bool} {l : List Char} {x : Char}
    (hx : x ∈ l.takeWhile p) : p x = true :=
  List.mem_takeWhile_imp hx

/-- Every token the lexer emits is well-formed: words are
identifier-shaped, string literals contain no line break and cannot contain
both quote characters. -/
theorem lexStep_tokWF {cs rest : List Char} {t : Tok}
    (h : lexStep cs = some (some t, rest)) : tokWF t = true := by
  match cs with
  | [] => simp [lexStep] at h
  | c :: cs' =>
    simp only [lexStep] at h
    by_cases h₁ : c = ' ' ∨ c = '\t' ∨ c = '\n'
    · rw [if_pos h₁] at h; cases h
    rw [if_neg h₁] at h
    by_cases h₂ : c = '('
    · rw [if_pos h₂] at h; cases h; rfl
    rw [if_neg h₂] at h
    by_cases h₃ : c = ')'
    · rw [if_pos h₃] at h; cases h; rfl
    rw [if_neg h₃] at h
    by_cases h₄ : c = '<'
    · rw [if_pos h₄] at h
      by_cases hh : cs'.head? = some '='
      · rw [if_pos hh] at h; cases h; rfl
      · rw [if_neg hh] at h; cases h; rfl
    rw [if_neg h₄] at h
    by_cases h₅ : c = '>'
    · rw [if_pos h₅] at h
      by_cases hh : cs'.head? = some '='
      · rw [if_pos hh] at h; cases h; rfl
      · rw [if_neg hh] at h; cases h; rfl
    rw [if_neg h₅] at h
    by_cases h₆ : c = '='
    · rw [if_pos h₆] at h; cases h; rfl
    rw [if_neg h₆] at h
    by_cases h₇ : c = '!'
    · rw [if_pos h₇] at h
      by_cases hh : cs'.head? = some '='
      · rw [if_pos hh] at h; cases h; rfl
      · rw [if_neg hh] at h; exact Option.noConfusion h
    rw [if_neg h₇] at h
    by_cases h₈ : c = '"' ∨ c = '\''
    · rw [if_pos h₈] at h
      by_cases hh : (cs'.dropWhile (fun d => !strBreak c d)).head? = some c
      · rw [if_pos hh] at h; cases h
        have hclean : ∀ x ∈ cs'.takeWhile (fun d => !strBreak c d),
            x ≠ c ∧ x ≠ '\n' ∧ x ≠ '\x0d' := by
          intro x hx
          have hx₂ := mem_takeWhile_pred hx
          simp [strBreak] at hx₂
          exact hx₂
        simp only [tokWF, litLexed]
        refine (Bool.and_eq_true _ _).mpr ⟨?_, ?_⟩
        · refine List.all_eq_true.mpr ?_
          intro x hx
          rcases hclean x hx with ⟨_, hn, hr⟩
          simp [hn, hr]
        · rcases h₈ with rfl | rfl
          · refine (Bool.or_eq_true _ _).mpr (.inl ?_)
            rw [Bool.not_eq_eq_eq_not, Bool.not_true, List.contains_eq_any_beq]
            rw [List.any_eq_false]
            intro x hx
            have hx₁ := (hclean x hx).1
            exact fun hc => hx₁ ((beq_iff_eq.mp hc).symm)
          · refine (Bool.or_eq_true _ _).mpr (.inr ?_)
            rw [Bool.not_eq_eq_eq_not, Bool.not_true, List.contains_eq_any_beq]
            rw [List.any_eq_false]
            intro x hx
            have hx₁ := (hclean x hx).1
            exact fun hc => hx₁ ((beq_iff_eq.mp hc).symm)
      · rw [if_neg hh] at h; exact Option.noConfusion h
    rw [if_neg h₈] at h
    by_cases h₉ : identHeadChar c = true
    · rw [if_pos h₉] at h; cases h
      simp only [tokWF, identB]
      refine (Bool.and_eq_true _ _).mpr ⟨h₉, ?_⟩
      refine List.all_eq_true.mpr ?_
      intro x hx
      exact mem_takeWhile_pred hx
    rw [if_neg h₉] at h
    by_cases h₁₀ : isDigitChar c = true
    · rw [if_pos h₁₀] at h; cases h; rfl
    rw [if_neg h₁₀] at h
    by_cases h₁₁ : c = '-' ∨ c = '+'
    · rw [if_pos h₁₁] at h
      by_cases hh : (cs'.head?.map isDigitChar).getD false = true
      · rw [if_pos hh] at h; cases h; rfl
      · rw [if_neg hh] at h; exact Option.noConfusion h
    rw [if_neg h₁₁] at h
    exact Option.noConfusion h

/-- All tokens of a lexed input are well-formed. -/
theorem lexTokens_tokWF : ∀ (n : Nat) (cs : List Char) (ts : List Tok),
    cs.length ≤ n → lexTokens cs = some ts → ∀ t ∈ ts, tokWF t = true := by
  intro n
  induction n with
  | zero =>
    intro cs ts h hlex t ht
    match cs, h with
    | [], _ =>
      simp [lexTokens, lexRun] at hlex
      subst hlex
      cases ht
  | succ n ih =>
    intro cs ts h hlex t ht
    match cs with
    | [] =>
      simp [lexTokens, lexRun] at hlex
      subst hlex
      cases ht
    | c :: cs' =>
      cases hstep : lexStep (c :: cs') with
      | none =>
        unfold lexTokens at hlex
        simp only [List.length_cons, lexRun, hstep] at hlex
        exact Option.noConfusion hlex
      | some pr =>
        obtain ⟨ot, rest⟩ := pr
        rw [lexTokens_step hstep] at hlex
        have hlt := lexStep_shorter hstep
        simp only [List.length_cons] at hlt h
        cases hrest : lexTokens rest with
        | none => rw [hrest] at hlex; cases hlex
        | some ts' =>
          rw [hrest] at hlex
          dsimp only [Option.map] at hlex
          injection hlex with hl
          subst hl
          revert ht
          cases ot with
          | none =>
            intro ht
            exact ih rest ts' (by omega) hrest t ht
          | some t₂ =>
            intro ht
            simp only [consOptTok] at ht
            rw [List.mem_cons] at ht
            rcases ht with ht | ht
            · subst ht; exact lexStep_tokWF hstep
            · exact ih rest ts' (by omega) hrest t ht

/-! ## Parser soundness -/

/-- All tokens of a list are possible lexer outputs. -/
def tokAllWF (ts : List Tok) : Prop := ∀ t ∈ ts, tokWF t = true

theorem tokAllWF_suffix {ts r : List Tok} (h : tokAllWF ts)
    (hs : r <:+ ts) : tokAllWF r :=
  fun t ht => h t (hs.subset ht)

theorem arityListB_iff : ∀ ops : List Expression,
    arityListB ops = true ↔ ∀ x ∈ ops, arityB x = true := by
  intro ops
  induction ops with
  | nil => simp [arityListB]
  | cons e es ih => simp [arityListB, ih]

theorem lexWFList_iff : ∀ ops : List Expression,
    lexWFList ops = true ↔ ∀ x ∈ ops, lexWF x = true := by
  intro ops
  induction ops with
  | nil => simp [lexWFList]
  | cons e es ih => simp [lexWFList, ih]

theorem printableListB_iff : ∀ ops : List Expression,
    printableListB ops = true ↔ ∀ x ∈ ops, printableB x = true := by
  intro ops
  induction ops with
  | nil => simp [printableListB]
  | cons e es ih => simp [printableListB, ih]

/-- The output invariant of the expression-level parser functions. -/
def POut (ts : List Tok) (e : Expression) (r : List Tok) : Prop :=
  arityB e = true ∧ (tokAllWF ts → lexWF e = true) ∧
    r.length < ts.length ∧ r <:+ ts

/-- The output invariant of the chain-continuation parser functions. -/
def PListOut (ts : List Tok) (ops : List Expression) (r : List Tok) : Prop :=
  (∀ x ∈ ops, arityB x = true ∧ (tokAllWF ts → lexWF x = true)) ∧
    r.length ≤ ts.length ∧ r <:+ ts

/-- Soundness of the token-level parser: every produced expression
satisfies the arity invariant (`NOT` unary, `AND`/`OR` at least binary),
fields and literals come from well-formed tokens, and parsing consumes a
positive number of tokens from the front of the input. -/
theorem parserSound : ∀ f : Nat,
    (∀ ts e r, pOr f ts = some (e, r) → POut ts e r) ∧
    (∀ ts e r, pAnd f ts = some (e, r) → POut ts e r) ∧
    (∀ ts e r, pNot f ts = some (e, r) → POut ts e r) ∧
    (∀ ts e r, pAtom f ts = some (e, r) → POut ts e r) ∧
    (∀ ts ops r, pOrRest f ts = some (ops, r) → PListOut ts ops r) ∧
    (∀ ts ops r, pAndRest f ts = some (ops, r) → PListOut ts ops r) := by
  intro f
  induction f with
  | zero =>
    refine ⟨?_, ?_, ?_, ?_, ?_, ?_⟩ <;> intro ts a r h <;>
      simp [pOr, pAnd, pNot, pAtom, pOrRest, pAndRest] at h
  | succ f ih =>
    obtain ⟨ihOr, ihAnd, ihNot, ihAtom, ihOrR, ihAndR⟩ := ih
    have hAtom : ∀ ts e r, pAtom (f + 1) ts = some (e, r) → POut ts e r := by
      intro ts e r h
      match ts with
      | .word fname :: opT :: valT :: rest =>
        simp only [pAtom] at h
        cases hop : tokOperator opT with
        | none => rw [hop] at h; exact Option.noConfusion h
        | some op =>
          cases hval : tokValue valT with
          | none => rw [hop, hval] at h; exact Option.noConfusion h
          | some v =>
            rw [hop, hval] at h
            injection h with h₁
            injection h₁ with he hr
            subst he hr
            refine ⟨rfl, ?_, by simp; omega, ⟨[.word fname, opT, valT], rfl⟩⟩
            intro hwf
            have hword := hwf (.word fname) (by simp)
            have hv := hwf valT (by simp)
            simp only [tokWF] at hword
            simp only [lexWF]
            refine (Bool.and_eq_true _ _).mpr ⟨hword, ?_⟩
            match valT, hval with
            | .strLit s, hval =>
              injection hval with hv₂
              subst hv₂
              simp only [tokWF] at hv
              exact hv
            | .intLit n, hval =>
              injection hval with hv₂
              subst hv₂
              rfl
      | .lpar :: rest =>
        simp only [pAtom] at h
        cases hO : pOr f rest with
        | none => rw [hO] at h; exact Option.noConfusion h
        | some pr =>
          obtain ⟨e₀, r₀⟩ := pr
          rw [hO] at h
          cases r₀ with
          | nil => exact Option.noConfusion h
          | cons t₀ ts₂ =>
            cases t₀ <;> try exact Option.noConfusion h
            case rpar =>
              dsimp only at h
              injection h with h₁
              injection h₁ with he hr
              obtain ⟨ha, hl, hlen, hsuf⟩ := ihOr rest e₀ (.rpar :: ts₂) hO
              subst he hr
              refine ⟨ha, ?_, ?_, ?_⟩
              · intro hwf
                exact hl (tokAllWF_suffix hwf ⟨[.lpar], rfl⟩)
              · simp only [List.length_cons] at hlen ⊢
                omega
              · have h₂ : ts₂ <:+ Tok.rpar :: ts₂ := List.suffix_cons _ _
                exact ((h₂.trans hsuf).trans ⟨[.lpar], rfl⟩)
      | [] => simp [pAtom] at h
      | [.word fname] => simp [pAtom] at h
      | [.word fname, t] => simp [pAtom] at h
      | .rpar :: rest => simp [pAtom] at h
      | .sym o :: rest => simp [pAtom] at h
      | .strLit s :: rest => simp [pAtom] at h
      | .intLit n :: rest => simp [pAtom] at h
    have hNot : ∀ ts e r, pNot (f + 1) ts = some (e, r) → POut ts e r := by
      intro ts e r h
      match ts with
      | [] =>
        simp only [pNot] at h
        exact ihAtom [] e r h
      | t :: rest =>
        simp only [pNot] at h
        by_cases hkw : isKw t "not" = true
        · rw [if_pos hkw] at h
          cases hN : pNot f rest with
          | none =>
            rw [hN] at h
            dsimp only at h
            exact ihAtom (t :: rest) e r h
          | some pr =>
            obtain ⟨e₀, ts₂⟩ := pr
            rw [hN] at h
            dsimp only at h
            injection h with h₁
            injection h₁ with he hr
            obtain ⟨ha, hl, hlen, hsuf⟩ := ihNot rest e₀ ts₂ hN
            subst he hr
            refine ⟨?_, ?_, ?_, ?_⟩
            · simp only [arityB, arityListB]
              simp [ha]
            · intro hwf
              have hle := hl (tokAllWF_suffix hwf (List.suffix_cons _ _))
              simp only [lexWF, lexWFList]
              simp [hle]
            · simp only [List.length_cons]; omega
            · exact hsuf.trans (List.suffix_cons _ _)
        · rw [if_neg hkw] at h
          exact ihAtom (t :: rest) e r h
    have hAndR : ∀ ts ops r, pAndRest (f + 1) ts = some (ops, r) → PListOut ts ops r := by
      intro ts ops r h
      match ts with
      | [] =>
        simp only [pAndRest] at h
        injection h with h₁
        injection h₁ with ho hr
        subst ho hr
        exact ⟨by simp, le_refl _, List.suffix_refl _⟩
      | t :: rest =>
        simp only [pAndRest] at h
        by_cases hkw : isKw t "and" = true
        · rw [if_pos hkw] at h
          cases hN : pNot f rest with
          | none =>
            rw [hN] at h
            dsimp only at h
            injection h with h₁
            injection h₁ with ho hr
            subst ho hr
            exact ⟨by simp, le_refl _, List.suffix_refl _⟩
          | some pr =>
            obtain ⟨e₀, rest₂⟩ := pr
            rw [hN] at h
            dsimp only at h
            cases hR : pAndRest f rest₂ with
            | none => rw [hR] at h; exact Option.noConfusion h
            | some pr₂ =>
              obtain ⟨ops₂, ts₂⟩ := pr₂
              rw [hR] at h
              dsimp only at h
              injection h with h₁
              injection h₁ with ho hr
              obtain ⟨ha, hl, hlen, hsuf⟩ := ihNot rest e₀ rest₂ hN
              obtain ⟨hops, hlen₂, hsuf₂⟩ := ihAndR rest₂ ops₂ ts₂ hR
              subst ho hr
              have hrestsuf : rest <:+ t :: rest := List.suffix_cons _ _
              refine ⟨?_, ?_, ?_⟩
              · intro x hx
                rw [List.mem_cons] at hx
                rcases hx with rfl | hx
                · exact ⟨ha, fun hwf => hl (tokAllWF_suffix hwf hrestsuf)⟩
                · obtain ⟨hxa, hxl⟩ := hops x hx
                  exact ⟨hxa, fun hwf =>
                    hxl (tokAllWF_suffix hwf (hsuf.trans hrestsuf))⟩
              · simp only [List.length_cons]; omega
              · exact (hsuf₂.trans hsuf).trans hrestsuf
        · rw [if_neg hkw] at h
          injection h with h₁
          injection h₁ with ho hr
          subst ho hr
          exact ⟨by simp, le_refl _, List.suffix_refl _⟩
    have hOrR : ∀ ts ops r, pOrRest (f + 1) ts = some (ops, r) → PListOut ts ops r := by
      intro ts ops r h
      match ts with
      | [] =>
        simp only [pOrRest] at h
        injection h with h₁
        injection h₁ with ho hr
        subst ho hr
        exact ⟨by simp, le_refl _, List.suffix_refl _⟩
      | t :: rest =>
        simp only [pOrRest] at h
        by_cases hkw : isKw t "or" = true
        · rw [if_pos hkw] at h
          cases hN : pAnd f rest with
          | none =>
            rw [hN] at h
            dsimp only at h
            injection h with h₁
            injection h₁ with ho hr
            subst ho hr
            exact ⟨by simp, le_refl _, List.suffix_refl _⟩
          | some pr =>
            obtain ⟨e₀, rest₂⟩ := pr
            rw [hN] at h
            dsimp only at h
            cases hR : pOrRest f rest₂ with
            | none => rw [hR] at h; exact Option.noConfusion h
            | some pr₂ =>
              obtain ⟨ops₂, ts₂⟩ := pr₂
              rw [hR] at h
              dsimp only at h
              injection h with h₁
              injection h₁ with ho hr
              obtain ⟨ha, hl, hlen, hsuf⟩ := ihAnd rest e₀ rest₂ hN
              obtain ⟨hops, hlen₂, hsuf₂⟩ := ihOrR rest₂ ops₂ ts₂ hR
              subst ho hr
              have hrestsuf : rest <:+ t :: rest := List.suffix_cons _ _
              refine ⟨?_, ?_, ?_⟩
              · intro x hx
                rw [List.mem_cons] at hx
                rcases hx with rfl | hx
                · exact ⟨ha, fun hwf => hl (tokAllWF_suffix hwf hrestsuf)⟩
                · obtain ⟨hxa, hxl⟩ := hops x hx
                  exact ⟨hxa, fun hwf =>
                    hxl (tokAllWF_suffix hwf (hsuf.trans hrestsuf))⟩
              · simp only [List.length_cons]; omega
              · exact (hsuf₂.trans hsuf).trans hrestsuf
        · rw [if_neg hkw] at h
          injection h with h₁
          injection h₁ with ho hr
          subst ho hr
          exact ⟨by simp, le_refl _, List.suffix_refl _⟩
    have hAnd : ∀ ts e r, pAnd (f + 1) ts = some (e, r) → POut ts e r := by
      intro ts e r h
      simp only [pAnd] at h
      cases hN : pNot f ts with
      | none => rw [hN] at h; exact Option.noConfusion h
      | some pr =>
        obtain ⟨e₀, ts₁⟩ := pr
        rw [hN] at h
        dsimp only at h
        cases hR : pAndRest f ts₁ with
        | none => rw [hR] at h; exact Option.noConfusion h
        | some pr₂ =>
          obtain ⟨ops, ts₂⟩ := pr₂
          rw [hR] at h
          try dsimp only at h
          obtain ⟨ha, hl, hlen, hsuf⟩ := ihNot ts e₀ ts₁ hN
          obtain ⟨hops, hlen₂, hsuf₂⟩ := ihAndR ts₁ ops ts₂ hR
          cases ops with
          | nil =>
            try dsimp only at h
            injection h with h₁
            injection h₁ with he hr
            subst he hr
            exact ⟨ha, hl, hlen, hsuf⟩
          | cons e₂ ops₂ =>
            try dsimp only at h
            injection h with h₁
            injection h₁ with he hr
            subst he hr
            have hopsa : ∀ x ∈ e₂ :: ops₂, arityB x = true ∧
                (tokAllWF ts → lexWF x = true) := by
              intro x hx
              obtain ⟨hxa, hxl⟩ := hops x hx
              exact ⟨hxa, fun hwf => hxl (tokAllWF_suffix hwf hsuf)⟩
            refine ⟨?_, ?_, ?_, ?_⟩
            · simp only [arityB]
              refine (Bool.and_eq_true _ _).mpr ⟨by simp, ?_⟩
              rw [arityListB_iff]
              intro x hx
              rw [List.mem_cons] at hx
              rcases hx with rfl | hx
              · exact ha
              · exact (hopsa x hx).1
            · intro hwf
              simp only [lexWF]
              rw [lexWFList_iff]
              intro x hx
              rw [List.mem_cons] at hx
              rcases hx with rfl | hx
              · exact hl hwf
              · exact (hopsa x hx).2 hwf
            · omega
            · exact hsuf₂.trans hsuf
    have hOr : ∀ ts e r, pOr (f + 1) ts = some (e, r) → POut ts e r := by
      intro ts e r h
      simp only [pOr] at h
      cases hN : pAnd f ts with
      | none => rw [hN] at h; exact Option.noConfusion h
      | some pr =>
        obtain ⟨e₀, ts₁⟩ := pr
        rw [hN] at h
        dsimp only at h
        cases hR : pOrRest f ts₁ with
        | none => rw [hR] at h; exact Option.noConfusion h
        | some pr₂ =>
          obtain ⟨ops, ts₂⟩ := pr₂
          rw [hR] at h
          try dsimp only at h
          obtain ⟨ha, hl, hlen, hsuf⟩ := ihAnd ts e₀ ts₁ hN
          obtain ⟨hops, hlen₂, hsuf₂⟩ := ihOrR ts₁ ops ts₂ hR
          cases ops with
          | nil =>
            try dsimp only at h
            injection h with h₁
            injection h₁ with he hr
            subst he hr
            exact ⟨ha, hl, hlen, hsuf⟩
          | cons e₂ ops₂ =>
            try dsimp only at h
            injection h with h₁
            injection h₁ with he hr
            subst he hr
            have hopsa : ∀ x ∈ e₂ :: ops₂, arityB x = true ∧
                (tokAllWF ts → lexWF x = true) := by
              intro x hx
              obtain ⟨hxa, hxl⟩ := hops x hx
              exact ⟨hxa, fun hwf => hxl (tokAllWF_suffix hwf hsuf)⟩
            refine ⟨?_, ?_, ?_, ?_⟩
            · simp only [arityB]
              refine (Bool.and_eq_true _ _).mpr ⟨by simp, ?_⟩
              rw [arityListB_iff]
              intro x hx
              rw [List.mem_cons] at hx
              rcases hx with rfl | hx
              · exact ha
              · exact (hopsa x hx).1
            · intro hwf
              simp only [lexWF]
              rw [lexWFList_iff]
              intro x hx
              rw [List.mem_cons] at hx
              rcases hx with rfl | hx
              · exact hl hwf
              · exact (hopsa x hx).2 hwf
            · omega
            · exact hsuf₂.trans hsuf
    exact ⟨hOr, hAnd, hNot, hAtom, hOrR, hAndR⟩

/-- Soundness at the `parseToks` level. -/
theorem parseToks_sound {ts : List Tok} {e : Expression}
    (h : parseToks ts = some e) :
    arityB e = true ∧ (tokAllWF ts → lexWF e = true) := by
  unfold parseToks at h
  cases hO : pOr (10 * ts.length + 10) ts with
  | none => rw [hO] at h; exact Option.noConfusion h
  | some pr =>
    obtain ⟨e₀, r⟩ := pr
    rw [hO] at h
    cases r with
    | nil =>
      injection h with he
      subst he
      obtain ⟨ha, hl, _, _⟩ := (parserSound _).1 ts e₀ [] hO
      exact ⟨ha, hl⟩
    | cons t r' => exact Option.noConfusion h

/-- Soundness at the string level: every parsed expression satisfies the
arity invariant and has identifier fields and lexable literals. -/
theorem parseOpt_sound {s : String} {e : Expression}
    (h : parseOpt s = some e) : arityB e = true ∧ lexWF e = true := by
  unfold parseOpt at h
  cases hL : lexTokens s.data with
  | none => rw [hL] at h; exact Option.noConfusion h
  | some ts =>
    rw [hL] at h
    obtain ⟨ha, hl⟩ := parseToks_sound h
    exact ⟨ha, hl (lexTokens_tokWF s.data.length s.data ts (le_refl _) hL)⟩

/-- C8: every AST the parser produces satisfies the structural invariants —
`NOT` has exactly one operand, `AND`/`OR` have at least two — and a chain
`A AND B AND C` at one precedence level parses to a single flattened
`BooleanExpr` with all three operands in order, not nested pairs. -/
theorem parser_output_invariants :
    (∀ (s : String) (e : Expression), parseExpression s = .ok e →
      arityB e = true) ∧
    parseExpression "a = 1 AND b = 2 AND c = 3" =
      .ok (.boolE .and [.cond "a" .eq (.int 1), .cond "b" .eq (.int 2),
        .cond "c" .eq (.int 3)]) ∧
    arityB (.boolE .not [.cond "a" .eq (.int 1)]) = true ∧
    arityB (.boolE .not []) = false ∧
    arityB (.boolE .and [.cond "a" .eq (.int 1)]) = false := by
  refine ⟨?_, by decide, by decide, by decide, by decide⟩
  intro s e h
  unfold parseExpression at h
  cases hP : parseOpt s with
  | none => rw [hP] at h; exact Except.noConfusion h
  | some e₀ =>
    rw [hP] at h
    injection h with he
    subst he
    exact (parseOpt_sound hP).1

/-- Witness for C8 at a concrete input: the arity invariant of the parse of
a nested expression, with the hypothesis discharged by evaluation. -/
theorem parser_output_invariants_witness :
    arityB (.boolE .or [.boolE .not [.cond "a" .eq (.int 1)],
      .boolE .and [.cond "b" .eq (.int 2), .cond "c" .eq (.int 3)]]) = true := by
  exact parser_output_invariants.1 "NOT a = 1 OR b = 2 AND c = 3" _ (by decide)

/-! ## Printing lemmas: characters and digits -/

/-- The head of `cs` (if any) does not satisfy `p`. -/
def headSafe (p : Char → Bool) : List Char → Prop
  | [] => True
  | c :: _ => p c = false

/-- An identifier head character is not any reserved lexer character. -/
theorem identHeadChar_reserved {c : Char} (h : identHeadChar c = true) :
    ¬(c = ' ' ∨ c = '\t' ∨ c = '\n') ∧ c ≠ '(' ∧ c ≠ ')' ∧ c ≠ '<' ∧
    c ≠ '>' ∧ c ≠ '=' ∧ c ≠ '!' ∧ ¬(c = '"' ∨ c = '\'') := by
  refine ⟨?_, ?_, ?_, ?_, ?_, ?_, ?_, ?_⟩
  · rintro (rfl | rfl | rfl) <;> exact absurd h (by decide)
  · rintro rfl; exact absurd h (by decide)
  · rintro rfl; exact absurd h (by decide)
  · rintro rfl; exact absurd h (by decide)
  · rintro rfl; exact absurd h (by decide)
  · rintro rfl; exact absurd h (by decide)
  · rintro rfl; exact absurd h (by decide)
  · rintro (rfl | rfl) <;> exact absurd h (by decide)

/-- A digit character is not an identifier head character. -/
theorem isDigitChar_not_identHead {c : Char} (h : isDigitChar c = true) :
    identHeadChar c = false := by
  simp [isDigitChar, identHeadChar, Char.le_def, UInt32.le_def,
    BitVec.le_def] at h ⊢
  omega

/-- A digit character is not any reserved lexer character. -/
theorem isDigitChar_reserved {c : Char} (h : isDigitChar c = true) :
    ¬(c = ' ' ∨ c = '\t' ∨ c = '\n') ∧ c ≠ '(' ∧ c ≠ ')' ∧ c ≠ '<' ∧
    c ≠ '>' ∧ c ≠ '=' ∧ c ≠ '!' ∧ ¬(c = '"' ∨ c = '\'') := by
  refine ⟨?_, ?_, ?_, ?_, ?_, ?_, ?_, ?_⟩
  · rintro (rfl | rfl | rfl) <;> exact absurd h (by decide)
  · rintro rfl; exact absurd h (by decide)
  · rintro rfl; exact absurd h (by decide)
  · rintro rfl; exact absurd h (by decide)
  · rintro rfl; exact absurd h (by decide)
  · rintro rfl; exact absurd h (by decide)
  · rintro rfl; exact absurd h (by decide)
  · rintro (rfl | rfl) <;> exact absurd h (by decide)

/-- A digit character is an identifier body character. -/
theorem isDigitChar_identChar {c : Char} (h : isDigitChar c = true) :
    identChar c = true := by
  simp [identChar, h]

/-- An identifier head character is an identifier body character. -/
theorem identHeadChar_identChar {c : Char} (h : identHeadChar c = true) :
    identChar c = true := by
  simp [identChar, h]

/-- `digitChar` facts for digits. -/
theorem digitChar_spec {n : Nat} (h : n < 10) :
    isDigitChar (digitChar n) = true ∧ (digitChar n).toNat = 48 + n := by
  interval_cases n <;> exact ⟨by decide, by decide⟩

/-- Appending one digit multiplies the value by ten. -/
theorem digitsVal_append (ds : List Char) (d : Char) :
    digitsVal (ds ++ [d]) = 10 * digitsVal ds + (d.toNat - 48) := by
  unfold digitsVal
  rw [List.foldl_append]
  rfl

/-- Unfolding `natDigs` in the multi-digit case. -/
theorem natDigs_step {f n : Nat} (h : ¬ n < 10) :
    natDigs (f + 1) n = natDigs f (n / 10) ++ [digitChar (n % 10)] := by
  conv_lhs => rw [natDigs]
  rw [if_neg h]

/-- Specification of `natDigs` with sufficient fuel: nonempty, all digits,
and the decimal value round-trips. -/
theorem natDigs_spec : ∀ (f n : Nat), n < 10 ^ (f + 1) →
    natDigs (f + 1) n ≠ [] ∧ (∀ c ∈ natDigs (f + 1) n, isDigitChar c = true) ∧
    digitsVal (natDigs (f + 1) n) = n := by
  intro f
  induction f with
  | zero =>
    intro n h
    have h10 : n < 10 := by simpa using h
    simp only [natDigs, if_pos h10]
    refine ⟨by simp, ?_, ?_⟩
    · intro c hc
      rw [List.mem_singleton] at hc
      subst hc
      exact (digitChar_spec h10).1
    · simp only [digitsVal, List.foldl]
      rw [(digitChar_spec h10).2]
      omega
  | succ f ih =>
    intro n h
    by_cases h10 : n < 10
    · simp only [natDigs, if_pos h10]
      refine ⟨by simp, ?_, ?_⟩
      · intro c hc
        rw [List.mem_singleton] at hc
        subst hc
        exact (digitChar_spec h10).1
      · simp only [digitsVal, List.foldl]
        rw [(digitChar_spec h10).2]
        omega
    · have hdiv : n / 10 < 10 ^ (f + 1) := by
        rw [Nat.div_lt_iff_lt_mul (by norm_num)]
        calc n < 10 ^ (f + 1 + 1) := h
        _ = 10 ^ (f + 1) * 10 := by ring
      obtain ⟨hne, hdig, hval⟩ := ih (n / 10) hdiv
      have hmod : n % 10 < 10 := Nat.mod_lt _ (by norm_num)
      rw [natDigs_step h10]
      refine ⟨by simp, ?_, ?_⟩
      · intro c hc
        rw [List.mem_append] at hc
        rcases hc with hc | hc
        · exact hdig c hc
        · rw [List.mem_singleton] at hc
          subst hc
          exact (digitChar_spec hmod).1
      · rw [digitsVal_append, hval, (digitChar_spec hmod).2]
        omega

/-- Specification of the decimal rendering of a natural number. -/
theorem natDecRepr_spec (n : Nat) :
    natDecRepr n ≠ [] ∧ (∀ c ∈ natDecRepr n, isDigitChar c = true) ∧
    digitsVal (natDecRepr n) = n := by
  have hlt : n < 10 ^ (n + 1) := by
    calc n < 10 ^ n := Nat.lt_pow_self (by norm_num) n
    _ ≤ 10 ^ (n + 1) := Nat.pow_le_pow_right (by norm_num) (by omega)
  exact natDigs_spec n n hlt

/-! ## Per-token lexing lemmas -/

theorem lexTokens_nil : lexTokens [] = some [] := rfl

theorem lexTokens_space (cs : List Char) :
    lexTokens (' ' :: cs) = lexTokens cs := by
  rw [lexTokens_step (show lexStep (' ' :: cs) = some (none, cs) from rfl)]
  cases lexTokens cs <;> rfl

theorem lexTokens_lpar (cs : List Char) :
    lexTokens ('(' :: cs) = (lexTokens cs).map (Tok.lpar :: ·) := by
  rw [lexTokens_step (show lexStep ('(' :: cs) = some (some .lpar, cs) from rfl)]
  cases lexTokens cs <;> rfl

theorem lexTokens_rpar (cs : List Char) :
    lexTokens (')' :: cs) = (lexTokens cs).map (Tok.rpar :: ·) := by
  rw [lexTokens_step (show lexStep (')' :: cs) = some (some .rpar, cs) from rfl)]
  cases lexTokens cs <;> rfl

/-- Lexing a word: an identifier-shaped prefix whose following character is
not an identifier character lexes to a single `word` token. -/
theorem lexTokens_word (w : String) (cs : List Char) (hw : identB w = true)
    (hcs : headSafe identChar cs) :
    lexTokens (w.data ++ cs) = (lexTokens cs).map (Tok.word w :: ·) := by
  match hd : w.data with
  | [] => simp [identB, hd] at hw
  | c :: body =>
    simp only [identB, hd] at hw
    rw [Bool.and_eq_true] at hw
    obtain ⟨hc, hbody⟩ := hw
    have hbody₂ : ∀ a ∈ body, identChar a = true := List.all_eq_true.mp hbody
    obtain ⟨hws, hlp, hrp, hlt, hgt, heq, hbang, hq⟩ := identHeadChar_reserved hc
    have hwmk : (⟨c :: body⟩ : String) = w := congrArg String.mk hd.symm
    have hstep : lexStep ((c :: body) ++ cs) = some (some (.word w), cs) := by
      simp only [List.cons_append, lexStep]
      rw [if_neg hws, if_neg hlp, if_neg hrp, if_neg hlt, if_neg hgt,
        if_neg heq, if_neg hbang, if_neg hq, if_pos hc]
      have ht : (body ++ cs).takeWhile identChar = body := by
        rw [List.takeWhile_append_of_pos hbody₂]
        match cs, hcs with
        | [], _ => simp
        | c₂ :: cs₂, hcs =>
          have hid : identChar c₂ = false := hcs
          rw [List.takeWhile_cons_of_neg (by simp [hid])]
          simp
      have hdw : (body ++ cs).dropWhile identChar = cs := by
        rw [List.dropWhile_append_of_pos hbody₂]
        match cs, hcs with
        | [], _ => simp
        | c₂ :: cs₂, hcs =>
          have hid : identChar c₂ = false := hcs
          rw [List.dropWhile_cons_of_neg (by simp [hid])]
      rw [ht, hdw, hwmk]
    rw [lexTokens_step hstep]
    cases lexTokens cs <;> rfl

theorem lexTokens_sym_eq (cs : List Char) :
    lexTokens ('=' :: cs) = (lexTokens cs).map (Tok.sym .eq :: ·) := by
  rw [lexTokens_step (show lexStep ('=' :: cs) = some (some (.sym .eq), cs) from rfl)]
  cases lexTokens cs <;> rfl

theorem lexTokens_sym_ne (cs : List Char) :
    lexTokens ('!' :: '=' :: cs) = (lexTokens cs).map (Tok.sym .ne :: ·) := by
  rw [lexTokens_step
    (show lexStep ('!' :: '=' :: cs) = some (some (.sym .ne), cs) from rfl)]
  cases lexTokens cs <;> rfl

theorem lexTokens_sym_le (cs : List Char) :
    lexTokens ('<' :: '=' :: cs) = (lexTokens cs).map (Tok.sym .le :: ·) := by
  rw [lexTokens_step
    (show lexStep ('<' :: '=' :: cs) = some (some (.sym .le), cs) from rfl)]
  cases lexTokens cs <;> rfl

theorem lexTokens_sym_ge (cs : List Char) :
    lexTokens ('>' :: '=' :: cs) = (lexTokens cs).map (Tok.sym .ge :: ·) := by
  rw [lexTokens_step
    (show lexStep ('>' :: '=' :: cs) = some (some (.sym .ge), cs) from rfl)]
  cases lexTokens cs <;> rfl

theorem lexTokens_sym_lt (cs : List Char) (h : cs.head? ≠ some '=') :
    lexTokens ('<' :: cs) = (lexTokens cs).map (Tok.sym .lt :: ·) := by
  have hstep : lexStep ('<' :: cs) = some (some (.sym .lt), cs) := by
    simp only [lexStep]
    rw [if_neg (by decide), if_neg (by decide), if_neg (by decide),
      if_pos trivial, if_neg h]
  rw [lexTokens_step hstep]
  cases lexTokens cs <;> rfl

theorem lexTokens_sym_gt (cs : List Char) (h : cs.head? ≠ some '=') :
    lexTokens ('>' :: cs) = (lexTokens cs).map (Tok.sym .gt :: ·) := by
  have hstep : lexStep ('>' :: cs) = some (some (.sym .gt), cs) := by
    simp only [lexStep]
    rw [if_neg (by decide), if_neg (by decide), if_neg (by decide),
      if_neg (by decide), if_pos trivial, if_neg h]
  rw [lexTokens_step hstep]
  cases lexTokens cs <;> rfl

/-- Lexing a quoted string literal whose content avoids the delimiter and
line breaks. -/
theorem lexTokens_strLit (s : String) (q : Char) (hq : q = '"' ∨ q = '\'')
    (hclean : ∀ c ∈ s.data, c ≠ q ∧ c ≠ '\n' ∧ c ≠ '\x0d') (cs : List Char) :
    lexTokens (q :: s.data ++ q :: cs) = (lexTokens cs).map (Tok.strLit s :: ·) := by
  have hpos : ∀ a ∈ s.data, (!strBreak q a) = true := by
    intro a ha
    obtain ⟨h₁, h₂, h₃⟩ := hclean a ha
    simp [strBreak, h₁, h₂, h₃]
  have hdrop : (s.data ++ q :: cs).dropWhile (fun d => !strBreak q d) = q :: cs := by
    rw [List.dropWhile_append_of_pos hpos]
    rw [List.dropWhile_cons_of_neg (by simp [strBreak])]
  have htake : (s.data ++ q :: cs).takeWhile (fun d => !strBreak q d) = s.data := by
    rw [List.takeWhile_append_of_pos hpos]
    rw [List.takeWhile_cons_of_neg (by simp [strBreak])]
    simp
  have hstep : lexStep (q :: s.data ++ q :: cs) = some (some (.strLit s), cs) := by
    rcases hq with rfl | rfl
    · simp only [List.cons_append, lexStep]
      rw [if_neg (by decide), if_neg (by decide), if_neg (by decide),
        if_neg (by decide), if_neg (by decide), if_neg (by decide),
        if_neg (by decide), if_pos (by decide)]
      rw [hdrop]
      rw [if_pos (by simp)]
      rw [htake]
      rfl
    · simp only [List.cons_append, lexStep]
      rw [if_neg (by decide), if_neg (by decide), if_neg (by decide),
        if_neg (by decide), if_neg (by decide), if_neg (by decide),
        if_neg (by decide), if_pos (by decide)]
      rw [hdrop]
      rw [if_pos (by simp)]
      rw [htake]
      rfl
  rw [List.cons_append] at hstep
  rw [show q :: s.data ++ q :: cs = q :: (s.data ++ q :: cs) from rfl]
  rw [lexTokens_step hstep]
  cases lexTokens cs <;> rfl

/-- Lexing a decimal integer literal whose following character is not a
digit. -/
theorem lexTokens_int (n : Int) (cs : List Char)
    (hcs : headSafe isDigitChar cs) :
    lexTokens (intDecRepr n ++ cs) = (lexTokens cs).map (Tok.intLit n :: ·) := by
  obtain ⟨hne, hdig, hval⟩ := natDecRepr_spec n.natAbs
  have htake : ∀ ds₀ : List Char, (∀ c ∈ ds₀, isDigitChar c = true) →
      (ds₀ ++ cs).takeWhile isDigitChar = ds₀ ∧
      (ds₀ ++ cs).dropWhile isDigitChar = cs := by
    intro ds₀ hds
    constructor
    · rw [List.takeWhile_append_of_pos hds]
      match cs, hcs with
      | [], _ => simp
      | c₂ :: cs₂, hcs =>
        have hid : isDigitChar c₂ = false := hcs
        rw [List.takeWhile_cons_of_neg (by simp [hid])]
        simp
    · rw [List.dropWhile_append_of_pos hds]
      match cs, hcs with
      | [], _ => simp
      | c₂ :: cs₂, hcs =>
        have hid : isDigitChar c₂ = false := hcs
        rw [List.dropWhile_cons_of_neg (by simp [hid])]
  match hrepr : natDecRepr n.natAbs with
  | [] => exact absurd hrepr hne
  | d :: ds =>
    rw [hrepr] at hdig hval
    have hd : isDigitChar d = true := hdig d (by simp)
    obtain ⟨hws, hlp, hrp, hlt, hgt, heq, hbang, hquo⟩ := isDigitChar_reserved hd
    by_cases hneg : n < 0
    · have hrepr₂ : intDecRepr n = '-' :: d :: ds := by
        unfold intDecRepr
        rw [if_pos hneg, hrepr]
      rw [hrepr₂]
      have hstep : lexStep ('-' :: (d :: ds) ++ cs) = some (some (.intLit n), cs) := by
        simp only [List.cons_append, lexStep]
        rw [if_neg (by decide), if_neg (by decide), if_neg (by decide),
          if_neg (by decide), if_neg (by decide), if_neg (by decide),
          if_neg (by decide), if_neg (by decide), if_neg (by decide),
          if_neg (by decide), if_pos (by decide)]
        have hcond : (Option.map isDigitChar (d :: (ds ++ cs)).head?).getD false = true := by
          simp [hd]
        rw [if_pos hcond, if_pos trivial]
        obtain ⟨ht, hdw⟩ := htake (d :: ds) (fun c hc => hdig c hc)
        rw [List.cons_append] at ht hdw
        rw [ht, hdw, hval]
        have hcast : -(n.natAbs : Int) = n := by omega
        rw [hcast]
      rw [List.cons_append] at hstep
      rw [show ('-' :: d :: ds) ++ cs = '-' :: (d :: ds ++ cs) from rfl]
      rw [lexTokens_step hstep]
      cases lexTokens cs <;> rfl
    · have hrepr₂ : intDecRepr n = d :: ds := by
        unfold intDecRepr
        rw [if_neg hneg, hrepr]
      rw [hrepr₂]
      have hstep : lexStep ((d :: ds) ++ cs) = some (some (.intLit n), cs) := by
        simp only [List.cons_append, lexStep]
        rw [if_neg hws, if_neg hlp, if_neg hrp, if_neg hlt, if_neg hgt,
          if_neg heq, if_neg hbang, if_neg hquo,
          if_neg (by simp [isDigitChar_not_identHead hd]), if_pos hd]
        obtain ⟨ht, hdw⟩ := htake ds
          (fun c hc => hdig c (List.mem_cons_of_mem _ hc))
        rw [ht, hdw, hval]
        have hcast : (n.natAbs : Int) = n := by omega
        rw [hcast]
      rw [lexTokens_step hstep]
      cases lexTokens cs <;> rfl

theorem contains_false_forall {l : List Char} {x : Char}
    (h : l.contains x = false) : ∀ c ∈ l, c ≠ x := by
  intro c hc rfl_h
  subst rfl_h
  rw [List.contains_eq_any_beq] at h
  rw [List.any_eq_false] at h
  exact absurd (by simp) (h c hc)

theorem flatten_map_singleton {l : List Char} {f : Char → List Char}
    (h : ∀ c ∈ l, f c = [c]) : (l.map f).flatten = l := by
  induction l with
  | nil => rfl
  | cons c cs ih =>
    simp only [List.map_cons, List.flatten_cons]
    rw [h c (by simp), ih (fun a ha => h a (by simp [ha]))]
    rfl

/-- The shape of Python `repr` of a clean printable string: a quote
character not occurring in the content, the content verbatim, the quote. -/
theorem pyReprStr_spec (s : String) (hlex : litLexed (.str s) = true)
    (hpr : litPrintable (.str s) = true) :
    ∃ q, (q = '"' ∨ q = '\'') ∧ (pyReprStr s).data = q :: s.data ++ [q] ∧
      ∀ c ∈ s.data, c ≠ q ∧ c ≠ '\n' ∧ c ≠ '\x0d' := by
  simp only [litLexed, Bool.and_eq_true] at hlex
  obtain ⟨hnl, hquo⟩ := hlex
  have hnl₂ : ∀ c ∈ s.data, c ≠ '\n' ∧ c ≠ '\x0d' := by
    intro c hc
    have := List.all_eq_true.mp hnl c hc
    simpa using this
  simp only [litPrintable] at hpr
  have hpr₂ : ∀ c ∈ s.data, c ≠ '\\' ∧ c ≠ '\t' := by
    intro c hc
    have := List.all_eq_true.mp hpr c hc
    simpa using this
  by_cases hsel : (s.data.contains '\'' && !s.data.contains '"') = true
  · have hsel₂ := (Bool.and_eq_true _ _).mp hsel
    have hnq : ∀ c ∈ s.data, c ≠ '"' :=
      contains_false_forall (by simpa using hsel₂.2)
    refine ⟨'"', .inl rfl, ?_, ?_⟩
    · unfold pyReprStr
      rw [if_pos hsel]
      have hesc : ∀ c ∈ s.data, escChar '"' c = [c] := by
        intro c hc
        have hq₂ := hnq c hc
        have hn₂ := hnl₂ c hc
        have hb₂ := hpr₂ c hc
        unfold escChar
        rw [if_neg hb₂.1, if_neg hq₂, if_neg hn₂.1, if_neg hn₂.2, if_neg hb₂.2]
      show '"' :: (s.data.map (escChar '"')).flatten ++ ['"'] = _
      rw [flatten_map_singleton hesc]
    · intro c hc
      exact ⟨hnq c hc, (hnl₂ c hc).1, (hnl₂ c hc).2⟩
  · have hns : ∀ c ∈ s.data, c ≠ '\'' := by
      refine contains_false_forall ?_
      by_cases hd : s.data.contains '"' = true
      · rcases (Bool.or_eq_true _ _).mp hquo with h₁ | h₁
        · rw [Bool.not_eq_true'] at h₁
          exact absurd hd (by rw [h₁]; decide)
        · rw [Bool.not_eq_true'] at h₁
          exact h₁
      · have hd₂ : s.data.contains '"' = false := by simpa using hd
        by_cases hs₂ : s.data.contains '\'' = true
        · exfalso
          apply hsel
          rw [Bool.and_eq_true]
          exact ⟨hs₂, by rw [hd₂]; rfl⟩
        · simpa using hs₂
    refine ⟨'\'', .inr rfl, ?_, ?_⟩
    · unfold pyReprStr
      rw [if_neg hsel]
      have hesc : ∀ c ∈ s.data, escChar '\'' c = [c] := by
        intro c hc
        have hb₂ := hpr₂ c hc
        unfold escChar
        rw [if_neg hb₂.1, if_neg (hns c hc), if_neg (hnl₂ c hc).1,
          if_neg (hnl₂ c hc).2, if_neg hb₂.2]
      show '\'' :: (s.data.map (escChar '\'')).flatten ++ ['\''] = _
      rw [flatten_map_singleton hesc]
    · intro c hc
      exact ⟨hns c hc, (hnl₂ c hc).1, (hnl₂ c hc).2⟩

/-- Lexing a printed literal. -/
theorem lexTokens_reprLit (v : Lit) (cs : List Char)
    (hlex : litLexed v = true) (hpr : litPrintable v = true)
    (hcs : headSafe isDigitChar cs) :
    lexTokens ((reprLit v).data ++ cs) = (lexTokens cs).map (valTok v :: ·) := by
  match v with
  | .int n => exact lexTokens_int n cs hcs
  | .str s =>
    obtain ⟨q, hq, hdata, hclean⟩ := pyReprStr_spec s hlex hpr
    show lexTokens ((pyReprStr s).data ++ cs) = _
    rw [hdata]
    rw [show (q :: s.data ++ [q]) ++ cs = q :: s.data ++ q :: cs by simp]
    exact lexTokens_strLit s q hq hclean cs

/-- Lexing a printed operator followed by a space. -/
theorem lexTokens_opText (op : Operator) (cs : List Char)
    (hsp : cs.head? = some ' ') :
    lexTokens ((opText op).data ++ cs) = (lexTokens cs).map (opTok op :: ·) := by
  have hsafe : headSafe identChar cs := by
    cases cs with
    | nil => trivial
    | cons c₀ cs₂ =>
      simp only [List.head?_cons, Option.some.injEq] at hsp
      subst hsp
      exact (by decide : identChar ' ' = false)
  have hne : cs.head? ≠ some '=' := by rw [hsp]; simp
  match op with
  | .eq => exact lexTokens_sym_eq cs
  | .ne => exact lexTokens_sym_ne cs
  | .lt => exact lexTokens_sym_lt cs hne
  | .gt => exact lexTokens_sym_gt cs hne
  | .le => exact lexTokens_sym_le cs
  | .ge => exact lexTokens_sym_ge cs
  | .contains => exact lexTokens_word "contains" cs (by decide) hsafe
  | .startswith => exact lexTokens_word "startswith" cs (by decide) hsafe
  | .endswith => exact lexTokens_word "endswith" cs (by decide) hsafe
  | .matches => exact lexTokens_word "matches" cs (by decide) hsafe
  | .fuzzy_contains => exact lexTokens_word "fuzzy_contains" cs (by decide) hsafe

theorem esize_pos (e : Expression) : 1 ≤ esize e := by
  cases e <;> simp [esize]

/-- `String.append` acts by list append on the character data. -/
theorem strData_append (a b : String) : (a ++ b).data = a.data ++ b.data := rfl

/-- The boundary contexts a printed expression can be followed by. -/
def PBoundary (cs : List Char) : Prop :=
  cs = [] ∨ cs.head? = some ' ' ∨ cs.head? = some ')'

theorem pbound_digit {cs : List Char} (h : PBoundary cs) :
    headSafe isDigitChar cs := by
  rcases h with rfl | h | h
  · trivial
  · cases cs with
    | nil => trivial
    | cons c₀ cs₂ =>
      simp only [List.head?_cons, Option.some.injEq] at h
      subst h
      exact (by decide : isDigitChar ' ' = false)
  · cases cs with
    | nil => trivial
    | cons c₀ cs₂ =>
      simp only [List.head?_cons, Option.some.injEq] at h
      subst h
      exact (by decide : isDigitChar ')' = false)

/-- Lexing the printed form of an expression (and of chain joins): the
printed text lexes to exactly the token sequence `toksOf`, in any boundary
context. -/
theorem printLex : ∀ k : Nat,
    (∀ e : Expression, esize e ≤ k → lexWF e = true → printableB e = true →
      ∀ cs : List Char, PBoundary cs →
        lexTokens ((reprExpr e).data ++ cs) =
          (lexTokens cs).map (toksOf e ++ ·)) ∧
    (∀ ops : List Expression, esizeList ops ≤ k → lexWFList ops = true →
      printableListB ops = true →
      ∀ (cs : List Char) (kw : String), kw = "AND" ∨ kw = "OR" →
        PBoundary cs →
        lexTokens ((reprJoin (" " ++ kw ++ " ") ops).data ++ cs) =
          (lexTokens cs).map (toksJoin (.word kw) ops ++ ·)) := by
  intro k
  induction k with
  | zero =>
    constructor
    · intro e hsz
      have := esize_pos e
      omega
    · intro ops hsz hl hp cs kw hkw hb
      match ops, hsz with
      | [], _ =>
        show lexTokens ([] ++ cs) = _
        rw [List.nil_append]
        cases lexTokens cs <;> rfl
      | e :: es, hsz =>
        have := esize_pos e
        simp only [esizeList] at hsz
        omega
  | succ k ih =>
    obtain ⟨ihE, ihJ⟩ := ih
    have hE : ∀ e : Expression, esize e ≤ k + 1 → lexWF e = true →
        printableB e = true → ∀ cs : List Char, PBoundary cs →
        lexTokens ((reprExpr e).data ++ cs) =
          (lexTokens cs).map (toksOf e ++ ·) := by
      intro e hsz hl hp cs hb
      match e with
      | .cond f op v =>
        simp only [lexWF, Bool.and_eq_true] at hl
        obtain ⟨hf, hv⟩ := hl
        simp only [printableB] at hp
        have hdata : (reprExpr (.cond f op v)).data ++ cs =
            f.data ++ (' ' :: ((opText op).data ++
              (' ' :: ((reprLit v).data ++ cs)))) := by
          show (f ++ " " ++ opText op ++ " " ++ reprLit v).data ++ cs = _
          simp only [strData_append, List.append_assoc, List.cons_append,
            List.nil_append]
        rw [hdata]
        rw [lexTokens_word f _ hf (by exact (by decide : identChar ' ' = false))]
        rw [lexTokens_space]
        rw [lexTokens_opText op _ (by simp)]
        rw [lexTokens_space]
        rw [lexTokens_reprLit v cs hv hp (pbound_digit hb)]
        cases lexTokens cs <;> rfl
      | .boolE .not ops =>
        simp only [lexWF] at hl
        simp only [printableB] at hp
        match ops with
        | [] =>
          have hdata : (reprExpr (.boolE .not [])).data ++ cs =
              "NOT".data ++ (' ' :: ('(' :: (')' :: cs))) := by
            show ("NOT (" ++ "" ++ ")").data ++ cs = _
            rfl
          rw [hdata]
          rw [lexTokens_word "NOT" _ (by decide)
            (by exact (by decide : identChar ' ' = false))]
          rw [lexTokens_space, lexTokens_lpar, lexTokens_rpar]
          cases lexTokens cs <;> rfl
        | e₀ :: rest =>
          simp only [lexWFList, Bool.and_eq_true] at hl
          simp only [printableListB, Bool.and_eq_true] at hp
          simp only [esize, esizeList] at hsz
          have hsz₀ : esize e₀ ≤ k := by omega
          have hdata : (reprExpr (.boolE .not (e₀ :: rest))).data ++ cs =
              "NOT".data ++ (' ' :: ('(' :: ((reprExpr e₀).data ++ (')' :: cs)))) := by
            show ("NOT (" ++ reprExpr e₀ ++ ")").data ++ cs = _
            simp only [strData_append, List.append_assoc]
            rfl
          rw [hdata]
          rw [lexTokens_word "NOT" _ (by decide)
            (by exact (by decide : identChar ' ' = false))]
          rw [lexTokens_space, lexTokens_lpar]
          rw [ihE e₀ hsz₀ hl.1 hp.1 (')' :: cs) (.inr (.inr (by simp)))]
          rw [lexTokens_rpar]
          cases lexTokens cs <;> · simp [toksOf]
      | .boolE .and ops =>
        simp only [lexWF] at hl
        simp only [printableB] at hp
        simp only [esize] at hsz
        have hdata : (reprExpr (.boolE .and ops)).data ++ cs =
            '(' :: ((reprJoin " AND " ops).data ++ (')' :: cs)) := by
          show ("(" ++ reprJoin " AND " ops ++ ")").data ++ cs = _
          simp only [strData_append, List.append_assoc]
          rfl
        rw [hdata, lexTokens_lpar]
        rw [show (" AND " : String) = " " ++ "AND" ++ " " from rfl]
        rw [ihJ ops (by omega) hl hp (')' :: cs) "AND" (.inl rfl)
          (.inr (.inr (by simp)))]
        rw [lexTokens_rpar]
        cases lexTokens cs <;> · simp [toksOf]
      | .boolE .or ops =>
        simp only [lexWF] at hl
        simp only [printableB] at hp
        simp only [esize] at hsz
        have hdata : (reprExpr (.boolE .or ops)).data ++ cs =
            '(' :: ((reprJoin " OR " ops).data ++ (')' :: cs)) := by
          show ("(" ++ reprJoin " OR " ops ++ ")").data ++ cs = _
          simp only [strData_append, List.append_assoc]
          rfl
        rw [hdata, lexTokens_lpar]
        rw [show (" OR " : String) = " " ++ "OR" ++ " " from rfl]
        rw [ihJ ops (by omega) hl hp (')' :: cs) "OR" (.inr rfl)
          (.inr (.inr (by simp)))]
        rw [lexTokens_rpar]
        cases lexTokens cs <;> · simp [toksOf]
    refine ⟨hE, ?_⟩
    intro ops hsz hl hp cs kw hkw hb
    induction ops with
    | nil =>
      show lexTokens ([] ++ cs) = _
      rw [List.nil_append]
      cases lexTokens cs <;> rfl
    | cons e₀ rest ihn =>
      match rest with
      | [] =>
        simp only [lexWFList, Bool.and_eq_true] at hl
        simp only [printableListB, Bool.and_eq_true] at hp
        simp only [esizeList] at hsz
        show lexTokens ((reprExpr e₀).data ++ cs) = _
        rw [hE e₀ (by omega) hl.1 hp.1 cs hb]
        cases lexTokens cs <;> rfl
      | e₁ :: rest₂ =>
        simp only [lexWFList, Bool.and_eq_true] at hl
        simp only [printableListB, Bool.and_eq_true] at hp
        simp only [esizeList] at hsz
        have hkwid : identB kw = true := by
          rcases hkw with rfl | rfl <;> decide
        have hdata : (reprJoin (" " ++ kw ++ " ") (e₀ :: e₁ :: rest₂)).data ++ cs =
            (reprExpr e₀).data ++ (' ' :: (kw.data ++ (' ' ::
              ((reprJoin (" " ++ kw ++ " ") (e₁ :: rest₂)).data ++ cs)))) := by
          show (reprExpr e₀ ++ (" " ++ kw ++ " ") ++
            reprJoin (" " ++ kw ++ " ") (e₁ :: rest₂)).data ++ cs = _
          simp only [strData_append, List.append_assoc]
          rfl
        rw [hdata]
        rw [hE e₀ (by omega) hl.1 hp.1 _ (.inr (.inl (by simp)))]
        rw [lexTokens_space]
        rw [lexTokens_word kw _ hkwid (by exact (by decide : identChar ' ' = false))]
        rw [lexTokens_space]
        have hrec := ihn (by simp only [esizeList]; omega)
          (by simp [lexWFList, hl.2]) (by simp [printableListB, hp.2])
        rw [hrec]
        cases lexTokens cs <;> · simp [toksJoin]

/-! ## Parser completeness: helpers -/

/-- The tokens of the tail of a printed chain: keyword before each
remaining operand. -/
def chainRest (kw : Tok) : List Expression → List Tok
  | [] => []
  | o :: os => kw :: toksOf o ++ chainRest kw os

theorem toksJoin_eq_chain (kw : Tok) :
    ∀ (o : Expression) (os : List Expression),
      toksJoin kw (o :: os) = toksOf o ++ chainRest kw os := by
  intro o os
  induction os generalizing o with
  | nil => simp [toksJoin, chainRest]
  | cons x xs ih =>
    show toksOf o ++ kw :: toksJoin kw (x :: xs) = _
    rw [ih x]
    simp [chainRest]

theorem toksOf_len (e : Expression) : 2 ≤ (toksOf e).length := by
  match e with
  | .cond f op v => simp [toksOf]
  | .boolE .not [] => simp [toksOf]
  | .boolE .not (e₀ :: os) => simp [toksOf]
  | .boolE .and ops => simp [toksOf]
  | .boolE .or ops => simp [toksOf]

/-- The head of `ts` (if any) is not the keyword `kw`. -/
def notKwHead (kw : String) (ts : List Tok) : Prop :=
  match ts with
  | [] => True
  | t :: _ => isKw t kw = false

theorem pAndRest_stop {f : Nat} (ts : List Tok) (hf : 1 ≤ f)
    (h : notKwHead "and" ts) : pAndRest f ts = some ([], ts) := by
  match f, hf with
  | f + 1, _ =>
    match ts with
    | [] => rfl
    | t :: rest =>
      have h₂ : isKw t "and" = false := h
      simp only [pAndRest]
      rw [if_neg (by simp [h₂])]

theorem pOrRest_stop {f : Nat} (ts : List Tok) (hf : 1 ≤ f)
    (h : notKwHead "or" ts) : pOrRest f ts = some ([], ts) := by
  match f, hf with
  | f + 1, _ =>
    match ts with
    | [] => rfl
    | t :: rest =>
      have h₂ : isKw t "or" = false := h
      simp only [pOrRest]
      rw [if_neg (by simp [h₂])]

theorem tokOperator_opTok (op : Operator) : tokOperator (opTok op) = some op := by
  cases op <;> rfl

theorem tokValue_valTok (v : Lit) : tokValue (valTok v) = some v := by
  cases v <;> rfl

theorem isKw_opTok_not (op : Operator) : isKw (opTok op) "not" = false := by
  cases op <;> rfl

/-- An atom attempt starting at an operator token fails (used for the
backtracking of a leading field named `not`). -/
theorem pAtom_opVal_none (f : Nat) (op : Operator) (v : Lit)
    (rest : List Tok) : pAtom f (opTok op :: valTok v :: rest) = none := by
  match f with
  | 0 => rfl
  | f + 1 =>
    cases op <;> cases v <;> cases rest <;> rfl

/-- A `NOT`-level attempt starting at an operator token fails. -/
theorem pNot_opVal_none (f : Nat) (op : Operator) (v : Lit)
    (rest : List Tok) : pNot f (opTok op :: valTok v :: rest) = none := by
  match f with
  | 0 => rfl
  | f + 1 =>
    simp only [pNot]
    rw [if_neg (by simp [isKw_opTok_not])]
    exact pAtom_opVal_none f op v rest

/-- `arityListB` membership split. -/
theorem arityListB_cons {o : Expression} {os : List Expression}
    (h : arityListB (o :: os) = true) :
    arityB o = true ∧ arityListB os = true := by
  simpa [arityListB, Bool.and_eq_true] using h

theorem esizeList_pos {ops : List Expression} (h : ops ≠ []) :
    1 ≤ esizeList ops := by
  match ops with
  | [] => exact absurd rfl h
  | o :: os =>
    have := esize_pos o
    simp only [esizeList]
    omega

/-- Completeness of the token parser on printed token sequences: with
enough fuel, each level of the `infix_notation` grammar re-parses the
token rendering of a well-arity expression, leaving the rest untouched
(the chain levels additionally need the rest not to begin with their own
keyword, which holds at every use site since printed forms are
parenthesised). -/
theorem parserComplete : ∀ k : Nat,
    (∀ (e : Expression) (rest : List Tok) (f : Nat), esize e ≤ k →
       arityB e = true → 4 * (toksOf e ++ rest).length + 4 ≤ f →
       pNot f (toksOf e ++ rest) = some (e, rest)) ∧
    (∀ (e : Expression) (rest : List Tok) (f : Nat), esize e ≤ k →
       arityB e = true → notKwHead "and" rest →
       4 * (toksOf e ++ rest).length + 5 ≤ f →
       pAnd f (toksOf e ++ rest) = some (e, rest)) ∧
    (∀ (e : Expression) (rest : List Tok) (f : Nat), esize e ≤ k →
       arityB e = true → notKwHead "and" rest → notKwHead "or" rest →
       4 * (toksOf e ++ rest).length + 6 ≤ f →
       pOr f (toksOf e ++ rest) = some (e, rest)) ∧
    (∀ (ops : List Expression) (rest : List Tok) (f : Nat),
       esizeList ops ≤ k → arityListB ops = true → notKwHead "and" rest →
       4 * (chainRest (.word "AND") ops ++ rest).length + 4 ≤ f →
       pAndRest f (chainRest (.word "AND") ops ++ rest) = some (ops, rest)) ∧
    (∀ (ops : List Expression) (rest : List Tok) (f : Nat),
       esizeList ops ≤ k → arityListB ops = true →
       notKwHead "and" rest → notKwHead "or" rest →
       4 * (chainRest (.word "OR") ops ++ rest).length + 5 ≤ f →
       pOrRest f (chainRest (.word "OR") ops ++ rest) = some (ops, rest)) ∧
    (∀ (o : Expression) (ops : List Expression) (rest : List Tok) (f : Nat),
       esize o + esizeList ops ≤ k → ops ≠ [] →
       arityB o = true → arityListB ops = true → notKwHead "and" rest →
       4 * ((toksOf o ++ chainRest (.word "AND") ops) ++ rest).length + 5 ≤ f →
       pAnd f (toksOf o ++ (chainRest (.word "AND") ops ++ rest))
         = some (.boolE .and (o :: ops), rest)) ∧
    (∀ (o : Expression) (ops : List Expression) (rest : List Tok) (f : Nat),
       esize o + esizeList ops ≤ k → ops ≠ [] →
       arityB o = true → arityListB ops = true →
       notKwHead "and" rest → notKwHead "or" rest →
       4 * ((toksOf o ++ chainRest (.word "OR") ops) ++ rest).length + 6 ≤ f →
       pOr f (toksOf o ++ (chainRest (.word "OR") ops ++ rest))
         = some (.boolE .or (o :: ops), rest)) ∧
    (∀ (o : Expression) (ops : List Expression) (rest : List Tok) (f : Nat),
       esize o + esizeList ops ≤ k → ops ≠ [] →
       arityB o = true → arityListB ops = true →
       notKwHead "and" rest → notKwHead "or" rest →
       4 * ((toksOf o ++ chainRest (.word "AND") ops) ++ rest).length + 6 ≤ f →
       pOr f (toksOf o ++ (chainRest (.word "AND") ops ++ rest))
         = some (.boolE .and (o :: ops), rest)) := by
  intro k
  induction k with
  | zero =>
    have hz : ∀ e : Expression, ¬ (esize e ≤ 0) := fun e h =>
      absurd h (by have := esize_pos e; omega)
    refine ⟨?_, ?_, ?_, ?_, ?_, ?_, ?_, ?_⟩
    · intro e rest f hsz _ _; exact absurd hsz (hz e)
    · intro e rest f hsz _ _ _; exact absurd hsz (hz e)
    · intro e rest f hsz _ _ _ _; exact absurd hsz (hz e)
    · intro ops rest f hsz ha hstop hf
      match ops with
      | [] =>
        simpa [chainRest] using pAndRest_stop rest (by omega) hstop
      | o :: os =>
        have := esize_pos o
        simp only [esizeList] at hsz
        omega
    · intro ops rest f hsz ha hand hor hf
      match ops with
      | [] =>
        simpa [chainRest] using pOrRest_stop rest (by omega) hor
      | o :: os =>
        have := esize_pos o
        simp only [esizeList] at hsz
        omega
    · intro o ops rest f hsz _ _ _ _ _
      exact absurd hsz (by have := esize_pos o; omega)
    · intro o ops rest f hsz _ _ _ _ _ _
      exact absurd hsz (by have := esize_pos o; omega)
    · intro o ops rest f hsz _ _ _ _ _ _
      exact absurd hsz (by have := esize_pos o; omega)
  | succ k ih =>
    obtain ⟨ih1, ih2, ih3, ih4, ih5, ih6, ih7, ih8⟩ := ih
    have s1 : ∀ (e : Expression) (rest : List Tok) (f : Nat),
        esize e ≤ k + 1 → arityB e = true →
        4 * (toksOf e ++ rest).length + 4 ≤ f →
        pNot f (toksOf e ++ rest) = some (e, rest) := by
      intro e rest f hsz ha hf
      match e with
      | .cond fld op v =>
        have hL : (toksOf (Expression.cond fld op v) ++ rest).length
            = rest.length + 3 := by simp [toksOf]
        rw [hL] at hf
        match f, hf with
        | f₁ + 1, hf =>
          have hat : ∀ g : Nat, 1 ≤ g →
              pAtom g (.word fld :: opTok op :: valTok v :: rest)
                = some (.cond fld op v, rest) := by
            intro g hg
            match g, hg with
            | g₁ + 1, _ =>
              simp [pAtom, tokOperator_opTok, tokValue_valTok]
          show pNot (f₁ + 1) (.word fld :: opTok op :: valTok v :: rest) = _
          simp only [pNot]
          by_cases hkw : isKw (.word fld) "not" = true
          · rw [if_pos hkw, pNot_opVal_none]
            exact hat f₁ (by omega)
          · rw [if_neg hkw]
            exact hat f₁ (by omega)
      | .boolE .not ops =>
        match ops, ha with
        | [e₀], ha =>
          have ha₀ : arityB e₀ = true := by
            simp [arityB, arityListB, Bool.and_eq_true] at ha
            exact ha
          have hsz₀ : esize e₀ ≤ k := by
            simp only [esize, esizeList] at hsz
            omega
          have hT : toksOf (Expression.boolE .not [e₀]) ++ rest
              = .word "NOT" :: .lpar :: (toksOf e₀ ++ (.rpar :: rest)) := by
            show (.word "NOT" :: .lpar :: (toksOf e₀ ++ [.rpar])) ++ rest = _
            simp
          have hL : (toksOf (Expression.boolE .not [e₀]) ++ rest).length
              = (toksOf e₀).length + rest.length + 3 := by
            rw [hT]; simp; try omega
          rw [hL] at hf
          rw [hT]
          match f, hf with
          | f₁ + 1, hf =>
            simp only [pNot]
            rw [if_pos (by decide)]
            have hinner : pNot f₁ (.lpar :: (toksOf e₀ ++ (.rpar :: rest)))
                = some (e₀, rest) := by
              match f₁, hf with
              | f₂ + 1, hf =>
                simp only [pNot]
                rw [if_neg (by decide)]
                match f₂, hf with
                | f₃ + 1, hf =>
                  simp only [pAtom]
                  rw [ih3 e₀ (.rpar :: rest) f₃ hsz₀ ha₀ rfl rfl
                    (by simp; omega)]
            rw [hinner]
        | [], ha => simp [arityB] at ha
        | e₀ :: e₁ :: ops₂, ha => simp [arityB] at ha
      | .boolE .and ops =>
        match ops, ha with
        | o₁ :: o₂ :: ops₂, ha =>
          have hal : arityListB (o₁ :: o₂ :: ops₂) = true := by
            simp [arityB, Bool.and_eq_true] at ha
            exact ha
          obtain ⟨ha₁, hal₂⟩ := arityListB_cons hal
          have hsz₂ : esize o₁ + esizeList (o₂ :: ops₂) ≤ k := by
            simp only [esize, esizeList] at hsz ⊢
            omega
          have hT : toksOf (Expression.boolE .and (o₁ :: o₂ :: ops₂)) ++ rest
              = .lpar :: (toksOf o₁
                  ++ (chainRest (.word "AND") (o₂ :: ops₂) ++ (.rpar :: rest))) := by
            show (.lpar :: toksJoin (.word "AND") (o₁ :: o₂ :: ops₂) ++ [.rpar])
                ++ rest = _
            rw [toksJoin_eq_chain]
            simp
          have hL : (toksOf (Expression.boolE .and (o₁ :: o₂ :: ops₂)) ++ rest).length
              = (toksOf o₁).length + (chainRest (.word "AND") (o₂ :: ops₂)).length
                + rest.length + 2 := by
            rw [hT]; simp; try omega
          rw [hL] at hf
          rw [hT]
          match f, hf with
          | f₁ + 1, hf =>
            simp only [pNot]
            rw [if_neg (by decide)]
            match f₁, hf with
            | f₂ + 1, hf =>
              simp only [pAtom]
              rw [ih8 o₁ (o₂ :: ops₂) (.rpar :: rest) f₂ hsz₂ (by simp)
                ha₁ hal₂ rfl rfl (by simp; omega)]
        | [], ha => simp [arityB] at ha
        | [o₁], ha => simp [arityB] at ha
      | .boolE .or ops =>
        match ops, ha with
        | o₁ :: o₂ :: ops₂, ha =>
          have hal : arityListB (o₁ :: o₂ :: ops₂) = true := by
            simp [arityB, Bool.and_eq_true] at ha
            exact ha
          obtain ⟨ha₁, hal₂⟩ := arityListB_cons hal
          have hsz₂ : esize o₁ + esizeList (o₂ :: ops₂) ≤ k := by
            simp only [esize, esizeList] at hsz ⊢
            omega
          have hT : toksOf (Expression.boolE .or (o₁ :: o₂ :: ops₂)) ++ rest
              = .lpar :: (toksOf o₁
                  ++ (chainRest (.word "OR") (o₂ :: ops₂) ++ (.rpar :: rest))) := by
            show (.lpar :: toksJoin (.word "OR") (o₁ :: o₂ :: ops₂) ++ [.rpar])
                ++ rest = _
            rw [toksJoin_eq_chain]
            simp
          have hL : (toksOf (Expression.boolE .or (o₁ :: o₂ :: ops₂)) ++ rest).length
              = (toksOf o₁).length + (chainRest (.word "OR") (o₂ :: ops₂)).length
                + rest.length + 2 := by
            rw [hT]; simp; try omega
          rw [hL] at hf
          rw [hT]
          match f, hf with
          | f₁ + 1, hf =>
            simp only [pNot]
            rw [if_neg (by decide)]
            match f₁, hf with
            | f₂ + 1, hf =>
              simp only [pAtom]
              rw [ih7 o₁ (o₂ :: ops₂) (.rpar :: rest) f₂ hsz₂ (by simp)
                ha₁ hal₂ rfl rfl (by simp; omega)]
        | [], ha => simp [arityB] at ha
        | [o₁], ha => simp [arityB] at ha
    have s2 : ∀ (e : Expression) (rest : List Tok) (f : Nat),
        esize e ≤ k + 1 → arityB e = true → notKwHead "and" rest →
        4 * (toksOf e ++ rest).length + 5 ≤ f →
        pAnd f (toksOf e ++ rest) = some (e, rest) := by
      intro e rest f hsz ha hstop hf
      match f, hf with
      | f₁ + 1, hf =>
        simp only [pAnd]
        rw [s1 e rest f₁ hsz ha (by omega)]
        dsimp only
        rw [pAndRest_stop rest (by omega) hstop]
    have s3 : ∀ (e : Expression) (rest : List Tok) (f : Nat),
        esize e ≤ k + 1 → arityB e = true →
        notKwHead "and" rest → notKwHead "or" rest →
        4 * (toksOf e ++ rest).length + 6 ≤ f →
        pOr f (toksOf e ++ rest) = some (e, rest) := by
      intro e rest f hsz ha hand hor hf
      match f, hf with
      | f₁ + 1, hf =>
        simp only [pOr]
        rw [s2 e rest f₁ hsz ha hand (by omega)]
        dsimp only
        rw [pOrRest_stop rest (by omega) hor]
    have s4 : ∀ (ops : List Expression) (rest : List Tok) (f : Nat),
        esizeList ops ≤ k + 1 → arityListB ops = true → notKwHead "and" rest →
        4 * (chainRest (.word "AND") ops ++ rest).length + 4 ≤ f →
        pAndRest f (chainRest (.word "AND") ops ++ rest) = some (ops, rest) := by
      intro ops rest f hsz ha hstop hf
      match ops with
      | [] =>
        simpa [chainRest] using pAndRest_stop rest (by omega) hstop
      | o :: os =>
        obtain ⟨ha₀, hal⟩ := arityListB_cons ha
        have hlenO := toksOf_len o
        have hszO := esize_pos o
        simp only [esizeList] at hsz
        have hT : chainRest (.word "AND") (o :: os) ++ rest
            = .word "AND" :: (toksOf o ++ (chainRest (.word "AND") os ++ rest)) := by
          simp [chainRest]
        have hL : (chainRest (Tok.word "AND") (o :: os) ++ rest).length
            = (toksOf o).length + (chainRest (.word "AND") os ++ rest).length
              + 1 := by
          rw [hT]; simp; try omega
        rw [hL] at hf
        rw [hT]
        match f, hf with
        | f₁ + 1, hf =>
          simp only [pAndRest]
          rw [if_pos (by decide)]
          rw [s1 o (chainRest (.word "AND") os ++ rest) f₁ (by omega) ha₀
            (by simp only [List.length_append] at hf ⊢; omega)]
          dsimp only
          rw [ih4 os rest f₁ (by omega) hal hstop (by omega)]
    have s5 : ∀ (ops : List Expression) (rest : List Tok) (f : Nat),
        esizeList ops ≤ k + 1 → arityListB ops = true →
        notKwHead "and" rest → notKwHead "or" rest →
        4 * (chainRest (.word "OR") ops ++ rest).length + 5 ≤ f →
        pOrRest f (chainRest (.word "OR") ops ++ rest) = some (ops, rest) := by
      intro ops rest f hsz ha hand hor hf
      match ops with
      | [] =>
        simpa [chainRest] using pOrRest_stop rest (by omega) hor
      | o :: os =>
        obtain ⟨ha₀, hal⟩ := arityListB_cons ha
        have hlenO := toksOf_len o
        have hszO := esize_pos o
        simp only [esizeList] at hsz
        have hand₂ : notKwHead "and" (chainRest (.word "OR") os ++ rest) := by
          match os with
          | [] => simpa [chainRest] using hand
          | o₂ :: os₂ => exact rfl
        have hT : chainRest (.word "OR") (o :: os) ++ rest
            = .word "OR" :: (toksOf o ++ (chainRest (.word "OR") os ++ rest)) := by
          simp [chainRest]
        have hL : (chainRest (Tok.word "OR") (o :: os) ++ rest).length
            = (toksOf o).length + (chainRest (.word "OR") os ++ rest).length
              + 1 := by
          rw [hT]; simp; try omega
        rw [hL] at hf
        rw [hT]
        match f, hf with
        | f₁ + 1, hf =>
          simp only [pOrRest]
          rw [if_pos (by decide)]
          rw [s2 o (chainRest (.word "OR") os ++ rest) f₁ (by omega) ha₀ hand₂
            (by simp only [List.length_append] at hf ⊢; omega)]
          dsimp only
          rw [ih5 os rest f₁ (by omega) hal hand hor (by omega)]
    have s6 : ∀ (o : Expression) (ops : List Expression) (rest : List Tok)
        (f : Nat), esize o + esizeList ops ≤ k + 1 → ops ≠ [] →
        arityB o = true → arityListB ops = true → notKwHead "and" rest →
        4 * ((toksOf o ++ chainRest (.word "AND") ops) ++ rest).length + 5 ≤ f →
        pAnd f (toksOf o ++ (chainRest (.word "AND") ops ++ rest))
          = some (.boolE .and (o :: ops), rest) := by
      intro o ops rest f hsz hne ha hal hstop hf
      have hlenO := toksOf_len o
      have hL : ((toksOf o ++ chainRest (.word "AND") ops) ++ rest).length
          = (toksOf o).length + (chainRest (.word "AND") ops ++ rest).length := by
        simp
      rw [hL] at hf
      match f, hf with
      | f₁ + 1, hf =>
        simp only [pAnd]
        rw [s1 o (chainRest (.word "AND") ops ++ rest) f₁ (by omega) ha
          (by simp only [List.length_append] at hf ⊢; omega)]
        dsimp only
        rw [s4 ops rest f₁ (by omega) hal hstop (by omega)]
        match ops, hne with
        | o₂ :: ops₂, _ => rfl
    have s7 : ∀ (o : Expression) (ops : List Expression) (rest : List Tok)
        (f : Nat), esize o + esizeList ops ≤ k + 1 → ops ≠ [] →
        arityB o = true → arityListB ops = true →
        notKwHead "and" rest → notKwHead "or" rest →
        4 * ((toksOf o ++ chainRest (.word "OR") ops) ++ rest).length + 6 ≤ f →
        pOr f (toksOf o ++ (chainRest (.word "OR") ops ++ rest))
          = some (.boolE .or (o :: ops), rest) := by
      intro o ops rest f hsz hne ha hal hand hor hf
      have hlenO := toksOf_len o
      have hand₂ : notKwHead "and" (chainRest (.word "OR") ops ++ rest) := by
        match ops, hne with
        | o₂ :: ops₂, _ => exact rfl
      have hL : ((toksOf o ++ chainRest (.word "OR") ops) ++ rest).length
          = (toksOf o).length + (chainRest (.word "OR") ops ++ rest).length := by
        simp
      rw [hL] at hf
      match f, hf with
      | f₁ + 1, hf =>
        simp only [pOr]
        rw [s2 o (chainRest (.word "OR") ops ++ rest) f₁ (by omega) ha hand₂
          (by simp only [List.length_append] at hf ⊢; omega)]
        dsimp only
        rw [s5 ops rest f₁ (by omega) hal hand hor (by omega)]
        match ops, hne with
        | o₂ :: ops₂, _ => rfl
    have s8 : ∀ (o : Expression) (ops : List Expression) (rest : List Tok)
        (f : Nat), esize o + esizeList ops ≤ k + 1 → ops ≠ [] →
        arityB o = true → arityListB ops = true →
        notKwHead "and" rest → notKwHead "or" rest →
        4 * ((toksOf o ++ chainRest (.word "AND") ops) ++ rest).length + 6 ≤ f →
        pOr f (toksOf o ++ (chainRest (.word "AND") ops ++ rest))
          = some (.boolE .and (o :: ops), rest) := by
      intro o ops rest f hsz hne ha hal hand hor hf
      match f, hf with
      | f₁ + 1, hf =>
        simp only [pOr]
        rw [s6 o ops rest f₁ hsz hne ha hal hand (by omega)]
        dsimp only
        rw [pOrRest_stop rest (by omega) hor]
    exact ⟨s1, s2, s3, s4, s5, s6, s7, s8⟩

/-- With its default fuel, the token parser re-parses the token rendering
of any expression satisfying the arity invariants. -/
theorem parseToks_complete (e : Expression) (ha : arityB e = true) :
    parseToks (toksOf e) = some e := by
  have h := (parserComplete (esize e)).2.2.1 e [] (10 * (toksOf e).length + 10)
    (le_refl _) ha trivial trivial (by simp only [List.append_nil]; omega)
  rw [List.append_nil] at h
  unfold parseToks
  rw [h]

/-- Full print-then-parse roundtrip for expressions with the parser's
invariants and no repr-escaped characters in string literals. -/
theorem reprExpr_roundtrip (e : Expression) (ha : arityB e = true)
    (hl : lexWF e = true) (hp : printableB e = true) :
    parseOpt (reprExpr e) = some e := by
  have hlex := (printLex (esize e)).1 e (le_refl _) hl hp [] (Or.inl rfl)
  rw [List.append_nil] at hlex
  have hlex₂ : lexTokens (reprExpr e).data = some (toksOf e) := by
    rw [hlex]
    simp [lexTokens, lexRun]
  unfold parseOpt
  rw [hlex₂]
  exact parseToks_complete e ha

/-- C7 counterexample: the roundtrip fails on a string literal containing a
backslash.  `QuotedString` performs no unescaping, so `'a\b'` parses to the
two-character-suffixed value `a\b`; Python `repr` then escapes the backslash,
printing `'a\\b'`, which re-parses to the different value `a\\b`. -/
theorem parse_print_reparse_cex :
    parseOpt "title = 'a\\b'" = some (.cond "title" .eq (.str "a\\b")) ∧
    reprExpr (.cond "title" .eq (.str "a\\b")) = "title = 'a\\\\b'" ∧
    parseOpt "title = 'a\\\\b'" = some (.cond "title" .eq (.str "a\\\\b")) ∧
    Expression.cond "title" .eq (.str "a\\\\b")
      ≠ Expression.cond "title" .eq (.str "a\\b") :=
  ⟨by decide, by decide, by decide, by decide⟩

/-- C7: parse–print–reparse roundtrip, amended.  For every string the parser
accepts, serialising the resulting AST and re-parsing yields a structurally
equal AST — provided no string literal of the AST contains a character that
Python `repr` escapes (backslash or tab; `printableB`).  Without that proviso
the property fails (see the counterexample above). -/
theorem parse_print_reparse (s : String) (e : Expression)
    (h : parseOpt s = some e) (hp : printableB e = true) :
    parseOpt (reprExpr e) = some e := by
  obtain ⟨ha, hl⟩ := parseOpt_sound h
  exact reprExpr_roundtrip e ha hl hp

theorem parse_print_reparse_witness :
    parseOpt "title = 1" = some (.cond "title" .eq (.int 1)) ∧
    printableB (.cond "title" .eq (.int 1)) = true ∧
    parseOpt (reprExpr (.cond "title" .eq (.int 1)))
      = some (.cond "title" .eq (.int 1)) :=
  ⟨by decide, by decide,
   parse_print_reparse "title = 1" (.cond "title" .eq (.int 1))
     (by decide) (by decide)⟩

/-- C9: `parse` rejects — with a `ValueError` wrapping the original input
text — the empty string, a condition missing its value, an unbalanced
parenthesis, a word outside the closed operator set in operator position,
and trailing input after a complete expression; every raised error carries
the original input; and `parse` succeeds on every well-formed expression of
the grammar, here exhibited as the printed form of any AST satisfying the
grammar's invariants. -/
theorem parse_error_policy :
    parseExpression "" = .error ⟨""⟩ ∧
    parseExpression "title contains" = .error ⟨"title contains"⟩ ∧
    parseExpression "(title = \"x\"" = .error ⟨"(title = \"x\""⟩ ∧
    parseExpression "title foo 5" = .error ⟨"title foo 5"⟩ ∧
    parseExpression "title = 1 title = 2" = .error ⟨"title = 1 title = 2"⟩ ∧
    (∀ (s : String) (err : ParseErr),
      parseExpression s = .error err → err.input = s) ∧
    (∀ e : Expression, arityB e = true → lexWF e = true →
      printableB e = true → parseExpression (reprExpr e) = .ok e) := by
  refine ⟨by decide, by decide, by decide, by decide, by decide, ?_, ?_⟩
  · intro s err h
    unfold parseExpression at h
    cases hp : parseOpt s with
    | some e => rw [hp] at h; exact Except.noConfusion h
    | none =>
      rw [hp] at h
      injection h with h₁
      rw [← h₁]
  · intro e ha hl hp
    unfold parseExpression
    rw [reprExpr_roundtrip e ha hl hp]

theorem parse_error_policy_witness :
    (⟨"price"⟩ : ParseErr).input = "price" ∧
    parseExpression (reprExpr (.cond "a" .lt (.int 2)))
      = .ok (.cond "a" .lt (.int 2)) :=
  ⟨parse_error_policy.2.2.2.2.2.1 "price" ⟨"price"⟩ (by decide),
   parse_error_policy.2.2.2.2.2.2 (.cond "a" .lt (.int 2))
     (by decide) (by decide) (by decide)⟩

end AudioWatch
